import Mathlib

/-!
# csv-data-shell: a shallow embedding of `csvshell.c`

The program keeps one global `Table` (a fixed grid of C strings, a header
array and two counters) and a read-eval loop whose commands load, show,
filter, sort and save that table.  This file embeds the table engine in
Lean, function by function, and proves properties of it.

Conventions of the embedding:

* a C string is the list of its bytes before the terminating NUL, one
  `Char` per byte (`CStr`);
* the `double` values produced by `atof` are modelled exactly (`Dbl`): the
  only floating-point operations of the program are the parse and the
  comparisons `>` and `<`, which are exact;
* `for (i = 0; i < n; i++) body` with a bound the body does not change is
  `forLoop n body`;
* a `strcpy` of a file field that does not fit in a `MAX_CELL_SIZE` buffer
  is undefined behaviour; `csv_load` returns `none` there.
-/

namespace CsvShell

/-! ## Constants -/

/-- Number of rows of the grid (`#define MAX_ROWS 1000`). -/
def MAX_ROWS : Nat := 1000

/-- Number of columns of the grid (`#define MAX_COLS 20`). -/
def MAX_COLS : Nat := 20

/-- Size in bytes of one cell buffer (`#define MAX_CELL_SIZE 256`). -/
def MAX_CELL_SIZE : Nat := 256

/-- Size in bytes of the line buffer of `csv_load` (`#define MAX_LINE 4096`). -/
def MAX_LINE : Nat := 4096

/-! ## C strings and the libc functions the program calls -/

/-- A C string: its bytes up to, not including, the terminating NUL. -/
abbrev CStr := List Char

/-- The libc `isspace` in the "C" locale: space, `\t`, `\n`, `\v`, `\f`, `\r`. -/
def isspace (c : Char) : Bool :=
  c = ' ' || c = '\t' || c = '\n' || c = '\x0b' || c = '\x0c' || c = '\r'

/-- A `for` loop `for (i = 0; i < n; i++) s = body i s`. -/
def forLoop {σ : Type} (n : Nat) (body : Nat → σ → σ) (s : σ) : σ :=
  (List.range n).foldl (fun acc i => body i acc) s

/-! ### The values of type `double`

Every finite binary64 number is an integer multiple of `2^-1074`, so a finite
value is stored as that integer.  The sign of zero is not kept: the program
only compares doubles, and `-0.0` and `0.0` compare equal. -/

/-- A binary64 value: NaN, an infinity, or the finite value `k * 2^-1074`. -/
inductive Dbl where
  | nan : Dbl
  | ninf : Dbl
  | fin (k : Int) : Dbl
  | pinf : Dbl
  deriving DecidableEq

namespace Dbl

/-- The C comparison `x < y` on doubles (false when either side is NaN). -/
def lt : Dbl → Dbl → Bool
  | nan, _ => false
  | _, nan => false
  | ninf, ninf => false
  | ninf, _ => true
  | _, ninf => false
  | fin a, fin b => decide (a < b)
  | fin _, pinf => true
  | pinf, _ => false

/-- The C comparison `x > y` on doubles. -/
def gt (x y : Dbl) : Bool := lt y x

/-- The C comparison `x <= y` on doubles (false when either side is NaN). -/
def le : Dbl → Dbl → Bool
  | nan, _ => false
  | _, nan => false
  | ninf, _ => true
  | _, pinf => true
  | fin a, fin b => decide (a ≤ b)
  | fin _, ninf => false
  | pinf, _ => false

/-- The C comparison `x == y` on doubles (false when either side is NaN). -/
def eq : Dbl → Dbl → Bool
  | nan, _ => false
  | _, nan => false
  | ninf, ninf => true
  | pinf, pinf => true
  | fin a, fin b => decide (a = b)
  | _, _ => false

/-- Whether the value is a NaN. -/
def isNaN : Dbl → Bool
  | nan => true
  | _ => false

/-- The double `0.0`. -/
def zero : Dbl := fin 0

/-- The double with the integer value `n`, for `n` small enough to be exact. -/
def ofNat (n : Nat) : Dbl := fin ((n : Int) * 2 ^ 1074)

end Dbl

/-- Number of binary digits of `n` (`fuel` bounds the recursion). -/
def bitLen : Nat → Nat → Nat
  | 0, _ => 0
  | fuel + 1, n => if n = 0 then 0 else bitLen fuel (n / 2) + 1

/-- Round the non-negative rational `num / den` to the nearest binary64 value,
ties to even, as a multiple of `2^-1074`; `none` is overflow.  The quantum is
`2^(s-1074)` with `s` chosen so that the significand has at most 53 bits; `s = 0`
is the subnormal range. -/
def roundNearestEven (num den : Nat) : Option Nat :=
  let x := num * 2 ^ 1074
  let k0 := x / den
  let s := bitLen (k0 + 1) k0 - 53
  let d := den * 2 ^ s
  let m := x / d
  let r := x % d
  let m1 := if 2 * r > d ∨ (2 * r = d ∧ m % 2 = 1) then m + 1 else m
  let k := m1 * 2 ^ s
  if k ≥ 2 ^ 2098 then none else some k

/-- The double nearest to `(-1)^neg * num / den`. -/
def mkDbl (neg : Bool) (num den : Nat) : Dbl :=
  match roundNearestEven num den with
  | none => if neg then Dbl.ninf else Dbl.pinf
  | some k => if neg then Dbl.fin (-(k : Int)) else Dbl.fin k

/-- Value of a decimal digit character. -/
def digitVal (c : Char) : Nat := c.toNat - '0'.toNat

/-- Whether the byte is a hexadecimal digit. -/
def isHexDigit (c : Char) : Bool :=
  c.isDigit || ('a' ≤ c && c ≤ 'f') || ('A' ≤ c && c ≤ 'F')

/-- Value of a hexadecimal digit character. -/
def hexVal (c : Char) : Nat :=
  if c.isDigit then c.toNat - '0'.toNat
  else if 'a' ≤ c && c ≤ 'f' then c.toNat - 'a'.toNat + 10
  else c.toNat - 'A'.toNat + 10

/-- Read a run of digits: the value accumulated from `acc`, the number of digits
read, and the rest of the string. -/
def readDigits (isD : Char → Bool) (val : Char → Nat) (base : Nat) :
    Nat → List Char → Nat × Nat × List Char
  | acc, [] => (acc, 0, [])
  | acc, c :: cs =>
    if isD c then
      let r := readDigits isD val base (acc * base + val c) cs
      (r.1, r.2.1 + 1, r.2.2)
    else (acc, 0, c :: cs)

/-- Read an optional exponent part `e[+-]digits` (marker `e` or `p`, given in
lower case): the signed exponent, `0` when the part is absent or has no digit. -/
def readExponent (marker : Char) : List Char → Int
  | [] => 0
  | c :: cs =>
    if c.toLower = marker then
      let sgn : Bool × List Char :=
        match cs with
        | '-' :: r => (true, r)
        | '+' :: r => (false, r)
        | r => (false, r)
      let d := readDigits Char.isDigit digitVal 10 0 sgn.2
      if d.2.1 = 0 then 0 else if sgn.1 then -(d.1 : Int) else (d.1 : Int)
    else 0

/-- The double nearest to `(-1)^neg * m * base^e`. -/
def scaleDbl (neg : Bool) (m base : Nat) (e : Int) : Dbl :=
  if e ≥ 0 then mkDbl neg (m * base ^ e.toNat) 1 else mkDbl neg m (base ^ (-e).toNat)

/-- A decimal floating constant at the head of the string: digits with an
optional `.`, at least one digit, then an optional exponent; the value is `0.0`
when there is no digit. -/
def readDecimal (neg : Bool) (s : List Char) : Dbl :=
  let ip := readDigits Char.isDigit digitVal 10 0 s
  let fp : Nat × Nat × List Char :=
    match ip.2.2 with
    | '.' :: r => readDigits Char.isDigit digitVal 10 ip.1 r
    | r => (ip.1, 0, r)
  if ip.2.1 + fp.2.1 = 0 then Dbl.zero
  else scaleDbl neg fp.1 10 (readExponent 'e' fp.2.2 - (fp.2.1 : Int))

/-- A hexadecimal floating constant, the string being what follows `0x`. -/
def readHex (neg : Bool) (s : List Char) : Dbl :=
  let ip := readDigits isHexDigit hexVal 16 0 s
  let fp : Nat × Nat × List Char :=
    match ip.2.2 with
    | '.' :: r => readDigits isHexDigit hexVal 16 ip.1 r
    | r => (ip.1, 0, r)
  scaleDbl neg fp.1 2 (readExponent 'p' fp.2.2 - 4 * (fp.2.1 : Int))

/-- Whether a hexadecimal significand with at least one digit starts here. -/
def startsHex : List Char → Bool
  | c :: cs => isHexDigit c || (c = '.' && (match cs with | d :: _ => isHexDigit d | [] => false))
  | [] => false

/-- The subject sequence of `strtod` after white space and sign. -/
def readNumber (neg : Bool) : List Char → Dbl
  | a :: b :: c :: rest =>
    if a.toLower = 'i' && b.toLower = 'n' && c.toLower = 'f' then
      (if neg then Dbl.ninf else Dbl.pinf)
    else if a.toLower = 'n' && b.toLower = 'a' && c.toLower = 'n' then Dbl.nan
    else if a = '0' && b.toLower = 'x' && startsHex (c :: rest) then readHex neg (c :: rest)
    else readDecimal neg (a :: b :: c :: rest)
  | s => readDecimal neg s

/-- The libc `atof`, that is `strtod(s, NULL)` in the "C" locale: skip white
space, read an optional sign, then the longest prefix that is `inf`, `nan`, a
hexadecimal or a decimal floating constant, rounded to nearest; `0.0` when there
is no such prefix. -/
def atof (s : CStr) : Dbl :=
  match s.dropWhile isspace with
  | '-' :: r => readNumber true r
  | '+' :: r => readNumber false r
  | r => readNumber false r

/-! ## The table -/

/-- The global table `current_table`: the grid `data[MAX_ROWS][MAX_COLS]` of cell
buffers, the header buffers and the two counters.  Cells outside the counters
keep whatever was last stored there. -/
structure Table where
  /-- The cell `data[row][col]`. -/
  data : Nat → Nat → CStr
  /-- The header `headers[col]`. -/
  headers : Nat → CStr
  /-- Number of rows in use. -/
  num_rows : Nat
  /-- Number of columns in use. -/
  num_cols : Nat

/-- The initial value `Table current_table = {0}`: every buffer empty. -/
def empty_table : Table := ⟨fun _ _ => [], fun _ => [], 0, 0⟩

/-- The grid after `strcpy(data[r][c], v)`. -/
def setCell (d : Nat → Nat → CStr) (r c : Nat) (v : CStr) : Nat → Nat → CStr :=
  fun r1 c1 => if r1 = r ∧ c1 = c then v else d r1 c1

/-- The header array after `strcpy(headers[c], v)`. -/
def setHeader (h : Nat → CStr) (c : Nat) (v : CStr) : Nat → CStr :=
  fun c1 => if c1 = c then v else h c1

/-- The first `m` cells of row `r` of a grid. -/
def rowOf (d : Nat → Nat → CStr) (m r : Nat) : List CStr :=
  (List.range m).map (d r)

/-- The first `n` rows of a grid, each cut to its first `m` cells. -/
def rowsOf (d : Nat → Nat → CStr) (n m : Nat) : List (List CStr) :=
  (List.range n).map (rowOf d m)

/-- The rows of the table: rows `0 .. num_rows-1`, columns `0 .. num_cols-1`. -/
def Table.rows (t : Table) : List (List CStr) := rowsOf t.data t.num_rows t.num_cols

/-- The header names of the table: `headers[0 .. num_cols-1]`. -/
def Table.headerList (t : Table) : List CStr := (List.range t.num_cols).map t.headers

/-- The state of the process: the table, the files that `fopen` can see, and
what has been written to the two output streams. -/
structure World where
  /-- The global `current_table`. -/
  table : Table
  /-- Result of `fopen(path, "r")`: the content of the file, or the text of the
  error that `perror` reports. -/
  readFile : CStr → Except CStr CStr
  /-- Failure of `fopen(path, "w")`: `none` when the file can be opened, else
  the text of the error that `perror` reports. -/
  writeError : CStr → Option CStr
  /-- Everything written to `stdout`. -/
  out : List Char
  /-- Everything written to `stderr`. -/
  err : List Char

/-- The conversion `%d` of `printf` for a non-negative value. -/
def fmtInt (n : Nat) : List Char := (Nat.repr n).toList

/-- The conversion `%-15s` of `printf`: left-justified in a field of 15. -/
def fmtPad15 (s : CStr) : List Char := s ++ List.replicate (15 - s.length) ' '

/-! ## `trim` -/

/-- The backward scan `while (end > str && isspace(*end)) end--` of `trim`,
from the index `e` of `end` in `str`; the result is the final index. -/
def trimScan (str : CStr) : Nat → Nat
  | 0 => 0
  | e + 1 => if isspace (str.getD (e + 1) 'x') then trimScan str e else e + 1

/-- The buffer after `trim(buf)`, read from its start.  The function advances its
local pointer `str` over the leading white space, returns at once when nothing
else is left, and otherwise writes a NUL after the last byte that is not white
space; the bytes before `str` stay in the buffer. -/
def trim (buf : CStr) : CStr :=
  let str := buf.dropWhile isspace
  if str = [] then buf
  else buf.takeWhile isspace ++ str.take (trimScan str (str.length - 1) + 1)

/-! ## `csv_load` -/

/-- The libc `fgets(line, k + 1, file)` on a stream with `s` left to read: at most
`k` bytes, ending after the first newline; the bytes read and what is left. -/
def fgets : Nat → List Char → List Char × List Char
  | 0, s => ([], s)
  | _, [] => ([], [])
  | k + 1, c :: s =>
    if c = '\n' then ([c], s)
    else (c :: (fgets k s).1, (fgets k s).2)

/-- The buffers that successive `fgets(line, MAX_LINE, file)` calls return until
the call that finds the end of the file; each call reads at least one byte, so
`fuel` equal to the length of the content is enough. -/
def fgetsAll : Nat → List Char → List (List Char)
  | 0, _ => []
  | fuel + 1, s =>
    if s = [] then []
    else (fgets (MAX_LINE - 1) s).1 :: fgetsAll fuel (fgets (MAX_LINE - 1) s).2

/-- The line buffer as a C string after `line[strcspn(line, "\n")] = 0`: the
bytes before the first newline or NUL. -/
def chompLine (buf : List Char) : CStr :=
  buf.takeWhile (fun c => c != '\n' && c != '\x00')

/-- The comma-separated fields of a string, empty ones included. -/
def splitFields : CStr → List CStr
  | [] => [[]]
  | c :: cs =>
    if c = ',' then [] :: splitFields cs
    else match splitFields cs with
      | f :: fs => (c :: f) :: fs
      | [] => [[c]]

/-- The tokens that `strtok(line, ",")` and the following `strtok(NULL, ",")`
calls return, up to the call that returns `NULL`.  `strtok` skips the delimiters
in front of a token, so a token is a maximal non-empty run of bytes other than
the comma. -/
def strtokAll (line : CStr) : List CStr :=
  (splitFields line).filter (fun f => !f.isEmpty)

/-- The header loop of `csv_load`:
`while (token != NULL && num_cols < MAX_COLS) { trim; strcpy; num_cols++; strtok }`
over the tokens of the line; `none` when a token overruns its buffer. -/
def load_header_loop : List CStr → Table → Option Table
  | [], t => some t
  | token :: rest, t =>
    if t.num_cols < MAX_COLS then
      if (trim token).length < MAX_CELL_SIZE then
        load_header_loop rest
          { t with headers := setHeader t.headers t.num_cols (trim token),
                   num_cols := t.num_cols + 1 }
      else none
    else some t

/-- The cell loop of `csv_load` for the row `num_rows`:
`while (token != NULL && col < num_cols) { trim; strcpy; col++; strtok }`. -/
def load_cell_loop : List CStr → Nat → Table → Option Table
  | [], _, t => some t
  | token :: rest, col, t =>
    if col < t.num_cols then
      if (trim token).length < MAX_CELL_SIZE then
        load_cell_loop rest (col + 1)
          { t with data := setCell t.data t.num_rows col (trim token) }
      else none
    else some t

/-- The row loop of `csv_load`:
`while (fgets(...) && num_rows < MAX_ROWS) { ...cells...; num_rows++; }`
over the buffers that `fgets` returns. -/
def load_row_loop : List (List Char) → Table → Option Table
  | [], t => some t
  | buf :: rest, t =>
    if t.num_rows < MAX_ROWS then
      match load_cell_loop (strtokAll (chompLine buf)) 0 t with
      | none => none
      | some t1 => load_row_loop rest { t1 with num_rows := t1.num_rows + 1 }
    else some t

/-- The body of `csv_load` once the file is open, on a file with the given
content: the table it leaves.  When the first `fgets` fails the header and the
column count are left as they were. -/
def load_file (t : Table) (content : List Char) : Option Table :=
  match fgetsAll content.length content with
  | [] => load_row_loop [] { t with num_rows := 0 }
  | buf :: rest =>
    match load_header_loop (strtokAll (chompLine buf)) { t with num_cols := 0 } with
    | none => none
    | some t1 => load_row_loop rest { t1 with num_rows := 0 }

/-- The command `load`: `csv_load(args)`. -/
def csv_load (w : World) (args : List CStr) : Option (Int × World) :=
  match args with
  | _ :: path :: _ =>
    match w.readFile path with
    | Except.error msg =>
      some (1, { w with err := w.err ++ "csv: ".toList ++ msg ++ "\n".toList })
    | Except.ok content =>
      match load_file w.table content with
      | none => none
      | some t =>
        some (1, { w with
          table := t,
          out := w.out ++ "Loaded ".toList ++ fmtInt t.num_rows ++ " rows, ".toList
                  ++ fmtInt t.num_cols ++ " columns\n".toList })
  | _ => some (1, { w with err := w.err ++ "csv: expected argument to \"load\"\n".toList })

/-! ## `csv_show` -/

/-- The text that `csv_show` prints for a table. -/
def show_text (t : Table) : List Char :=
  if t.num_rows = 0 then "No data loaded. Use 'load <file.csv>' first.\n".toList
  else
    let o1 := forLoop t.num_cols (fun i o => o ++ fmtPad15 (t.headers i)) []
    let o2 := o1 ++ "\n".toList
    let o3 := forLoop t.num_cols (fun _ o => o ++ fmtPad15 "---------------".toList) o2
    let o4 := o3 ++ "\n".toList
    let max_rows := if t.num_rows > 20 then 20 else t.num_rows
    let o5 := forLoop max_rows (fun row o =>
      forLoop t.num_cols (fun col o => o ++ fmtPad15 (t.data row col)) o ++ "\n".toList) o4
    if t.num_rows > 20 then
      o5 ++ "...(".toList ++ fmtInt (t.num_rows - 20) ++ " more rows)\n".toList
    else o5

/-- The command `show`: `csv_show(args)`. -/
def csv_show (w : World) (_args : List CStr) : Int × World :=
  (1, { w with out := w.out ++ show_text w.table })

/-! ## `find_column` and `compare_values` -/

/-- The loop of `find_column` from index `i` with `n` iterations left:
return `i` at the first header equal to the name (`strcmp(...) == 0`). -/
def find_column_loop (t : Table) (column_name : CStr) : Nat → Nat → Int
  | 0, _ => -1
  | n + 1, i =>
    if t.headers i = column_name then (i : Int)
    else find_column_loop t column_name n (i + 1)

/-- The function `find_column(column_name)`: index of the column, or `-1`. -/
def find_column (t : Table) (column_name : CStr) : Int :=
  find_column_loop t column_name t.num_cols 0

/-- The function `compare_values(val1, op, val2)`: whether the returned `int` is
non-zero, and what the call writes to `stderr`. -/
def compare_values (val1 op val2 : CStr) : Bool × List Char :=
  if op = "==".toList then (decide (val1 = val2), [])
  else if op = "!=".toList then (decide (val1 ≠ val2), [])
  else if op = ">".toList then (Dbl.gt (atof val1) (atof val2), [])
  else if op = "<".toList then (Dbl.lt (atof val1) (atof val2), [])
  else (false, "csv: unknown operator: ".toList ++ op ++ "\n".toList)

/-! ## `csv_filter` -/

/-- The loop `for (col = 0; col < n; col++) strcpy(dst[drow][col], src[srow][col])`. -/
def copy_row (src : Nat → Nat → CStr) (srow : Nat) (n drow : Nat)
    (dst : Nat → Nat → CStr) : Nat → Nat → CStr :=
  forLoop n (fun col d => setCell d drow col (src srow col)) dst

/-- The state of the row loop of `csv_filter`: the grid of `temp_table`, the
counter `new_row_count` and the text written to `stderr`. -/
structure FilterState where
  /-- The grid `temp_table.data`. -/
  temp : Nat → Nat → CStr
  /-- The counter `new_row_count`. -/
  new_row_count : Nat
  /-- Text written to `stderr` by `compare_values`. -/
  err : List Char

/-- One iteration of the row loop of `csv_filter`. -/
def filter_step (t : Table) (col_index : Nat) (op value : CStr) (row : Nat)
    (s : FilterState) : FilterState :=
  let r := compare_values (t.data row col_index) op value
  if r.1 then
    { temp := copy_row t.data row t.num_cols s.new_row_count s.temp,
      new_row_count := s.new_row_count + 1,
      err := s.err ++ r.2 }
  else { s with err := s.err ++ r.2 }

/-- The row loop of `csv_filter`, `temp_table` starting with the grid `temp0`. -/
def filter_loop (t : Table) (col_index : Nat) (op value : CStr)
    (temp0 : Nat → Nat → CStr) : FilterState :=
  forLoop t.num_rows (filter_step t col_index op value) ⟨temp0, 0, []⟩

/-- The loop of `csv_filter` that copies `temp_table` back:
rows `0 .. new_row_count-1`, columns `0 .. num_cols-1`. -/
def copy_back (temp : Nat → Nat → CStr) (new_row_count num_cols : Nat)
    (d : Nat → Nat → CStr) : Nat → Nat → CStr :=
  forLoop new_row_count (fun row d => copy_row temp row num_cols row d) d

/-- The table after the body of `csv_filter` for a column that was found.  The
local `temp_table` is not initialised in C; only cells written by the row loop
are read back, and the model starts it empty. -/
def filter_table (t : Table) (col_index : Nat) (op value : CStr) : Table :=
  let s := filter_loop t col_index op value (fun _ _ => [])
  { t with data := copy_back s.temp s.new_row_count t.num_cols t.data,
           num_rows := s.new_row_count }

/-- The command `filter`: `csv_filter(args)`. -/
def csv_filter (w : World) (args : List CStr) : Int × World :=
  match args with
  | _ :: name :: op :: value :: _ =>
    let col_index := find_column w.table name
    if col_index = -1 then
      (1, { w with err := w.err ++ "csv: column '".toList ++ name ++ "' not found\n".toList })
    else
      let s := filter_loop w.table col_index.toNat op value (fun _ _ => [])
      (1, { w with
        table := filter_table w.table col_index.toNat op value,
        out := w.out ++ "Filtered to ".toList ++ fmtInt s.new_row_count ++ " rows\n".toList,
        err := w.err ++ s.err })
  | _ => (1, { w with err := w.err ++ "csv: usage: filter <column> <op> <value>\n".toList })

/-! ## `csv_sort` -/

/-- The loop of `csv_sort` that swaps rows `j` and `j + 1` cell by cell through
the buffer `temp`, over columns `0 .. num_cols-1`. -/
def swap_rows (num_cols j : Nat) (d : Nat → Nat → CStr) : Nat → Nat → CStr :=
  forLoop num_cols (fun col d =>
    let temp := d j col
    setCell (setCell d j col (d (j + 1) col)) (j + 1) col temp) d

/-- The body of the inner loop of `csv_sort`: swap rows `j` and `j + 1` when
`atof` of the first key is greater than `atof` of the second. -/
def sort_step (num_cols col_index j : Nat) (d : Nat → Nat → CStr) : Nat → Nat → CStr :=
  if Dbl.gt (atof (d j col_index)) (atof (d (j + 1) col_index)) then swap_rows num_cols j d
  else d

/-- The two nested loops of `csv_sort`:
`for (i = 0; i < num_rows - 1; i++) for (j = 0; j < num_rows - i - 1; j++)`. -/
def sort_table (t : Table) (col_index : Nat) : Table :=
  { t with data :=
      forLoop (t.num_rows - 1) (fun i d =>
        forLoop (t.num_rows - i - 1) (sort_step t.num_cols col_index) d) t.data }

/-- The command `sort`: `csv_sort(args)`. -/
def csv_sort (w : World) (args : List CStr) : Int × World :=
  match args with
  | _ :: name :: _ =>
    let col_index := find_column w.table name
    if col_index = -1 then
      (1, { w with err := w.err ++ "csv: column '".toList ++ name ++ "' not found\n".toList })
    else
      (1, { w with
        table := sort_table w.table col_index.toNat,
        out := w.out ++ "Sorted by ".toList ++ name ++ "\n".toList })
  | _ => (1, { w with err := w.err ++ "csv: expected argument to \"sort\"\n".toList })

/-! ## `csv_save` -/

/-- The loop that writes one line of `csv_save`: the `n` strings `cell 0 ..`,
a comma after each but the last, then a newline. -/
def save_line (n : Nat) (cell : Nat → CStr) (o : List Char) : List Char :=
  forLoop n (fun col o =>
    if col < n - 1 then o ++ cell col ++ ",".toList else o ++ cell col) o ++ "\n".toList

/-- The text that `csv_save` writes to the file. -/
def save_text (t : Table) : List Char :=
  forLoop t.num_rows (fun row o => save_line t.num_cols (t.data row) o)
    (save_line t.num_cols t.headers [])

/-- The command `save`: `csv_save(args)`. -/
def csv_save (w : World) (args : List CStr) : Int × World :=
  match args with
  | _ :: path :: _ =>
    match w.writeError path with
    | some msg => (1, { w with err := w.err ++ "csv: ".toList ++ msg ++ "\n".toList })
    | none =>
      (1, { w with
        readFile := fun p => if p = path then Except.ok (save_text w.table) else w.readFile p,
        out := w.out ++ "saved ".toList ++ fmtInt w.table.num_rows ++ " rows to ".toList
                ++ path ++ "\n".toList })
  | _ => (1, { w with err := w.err ++ "csv: expected argument to \"save\"\n".toList })

/-! ## The small commands and the dispatcher -/

/-- The command `count`: `csv_count(args)`. -/
def csv_count (w : World) (_args : List CStr) : Int × World :=
  if w.table.num_rows = 0 then (1, { w with out := w.out ++ "No data loaded.\n".toList })
  else (1, { w with out := w.out ++ fmtInt w.table.num_rows ++ " rows\n".toList })

/-- The command `columns`: `csv_columns(args)`. -/
def csv_columns (w : World) (_args : List CStr) : Int × World :=
  let o1 := w.out ++ "Columns (".toList ++ fmtInt w.table.num_cols ++ "): ".toList
  let o2 := forLoop w.table.num_cols (fun i o =>
    if i < w.table.num_cols - 1 then o ++ w.table.headers i ++ ", ".toList
    else o ++ w.table.headers i) o1
  (1, { w with out := o2 ++ "\n".toList })

/-- The array `builtin_str` of command names. -/
def builtin_str : List CStr :=
  ["load".toList, "show".toList, "filter".toList, "sort".toList, "save".toList,
   "count".toList, "columns".toList, "help".toList, "exit".toList]

/-- The command `help`: `csv_help(args)`. -/
def csv_help (w : World) (_args : List CStr) : Int × World :=
  let o1 := w.out ++ "CSV Data Shell\n".toList
    ++ "Type commands and arguments, and hit enter.\n".toList
    ++ "The following commands are built in:\n".toList
  let o2 := forLoop builtin_str.length (fun i o =>
    o ++ "    ".toList ++ builtin_str.getD i [] ++ "\n".toList) o1
  (1, { w with out := o2 ++ "Use 'help' to see this message again.\n".toList })

/-- The command `exit`: `csv_exit(args)` returns 0. -/
def csv_exit (w : World) (_args : List CStr) : Int × World := (0, w)

/-- The array `builtin_func`, in the order of `builtin_str`. -/
def builtin_func : List (World → List CStr → Option (Int × World)) :=
  [csv_load,
   fun w a => some (csv_show w a),
   fun w a => some (csv_filter w a),
   fun w a => some (csv_sort w a),
   fun w a => some (csv_save w a),
   fun w a => some (csv_count w a),
   fun w a => some (csv_columns w a),
   fun w a => some (csv_help w a),
   fun w a => some (csv_exit w a)]

/-- The loop of `csv_execute` over the builtin commands, from index `i` with `n`
iterations left: call the function of the first name equal to `args[0]`. -/
def execute_loop (w : World) (cmd : CStr) (args : List CStr) :
    Nat → Nat → Option (Option (Int × World))
  | 0, _ => none
  | n + 1, i =>
    if cmd = builtin_str.getD i [] then
      some ((builtin_func.getD i (fun _ _ => none)) w args)
    else execute_loop w cmd args n (i + 1)

/-- The function `csv_execute(args)`: the status (0 = exit, 1 = continue) and the
state it leaves; `none` when the command runs into undefined behaviour. -/
def csv_execute (w : World) (args : List CStr) : Option (Int × World) :=
  match args with
  | [] => some (1, w)
  | cmd :: _ =>
    match execute_loop w cmd args builtin_str.length 0 with
    | some r => r
    | none =>
      some (1, { w with
        out := w.out ++ "csv: unknown command: ".toList ++ cmd ++ "\n".toList
                ++ "Type 'help' for available commands\n".toList })

/-! ## Definitions used to state the properties -/

/-- The predicate of `csv_filter` read on a row: `compare_values` applied to the
cell of column `c`. -/
def rowSatisfies (c : Nat) (op value : CStr) (row : List CStr) : Bool :=
  (compare_values (row.getD c []) op value).1

/-- The sort key of row `r` of a grid: `atof` of its cell in column `c`. -/
def keyAt (d : Nat → Nat → CStr) (c r : Nat) : Dbl := atof (d r c)

/-- The sort key of a row given as a list of cells. -/
def rowKey (c : Nat) (row : List CStr) : Dbl := atof (row.getD c [])

/-- The keys after the rows `j` and `j + 1` have been exchanged. -/
def swapKeys (j : Nat) (key : Nat → Dbl) : Nat → Dbl :=
  fun r => if r = j then key (j + 1) else if r = j + 1 then key j else key r

/-- The effect of `sort_step` on the keys of the rows. -/
def stepKeys (j : Nat) (key : Nat → Dbl) : Nat → Dbl :=
  if Dbl.gt (key j) (key (j + 1)) then swapKeys j key else key

/-- No key at the positions `q .. p` is a NaN. -/
def NoNaN (key : Nat → Dbl) (q p : Nat) : Prop :=
  ∀ r, q ≤ r → r ≤ p → (key r).isNaN = false

/-- The table whose headers and rows are the given lists, every other buffer
being empty. -/
def tableOf (headers : List CStr) (rows : List (List CStr)) : Table :=
  ⟨fun r c => (rows.getD r []).getD c [], fun c => headers.getD c [], rows.length,
   headers.length⟩

/-- A process state with the given table, no readable file, every path
writable, and nothing written yet. -/
def worldOf (t : Table) : World :=
  ⟨t, fun _ => Except.error "No such file or directory".toList, fun _ => none, [], []⟩

/-- The table of the file `name,age / Alice,30 / Bob,22 / Cara,41`. -/
def people : Table :=
  tableOf ["name".toList, "age".toList]
    [["Alice".toList, "30".toList], ["Bob".toList, "22".toList], ["Cara".toList, "41".toList]]

/-- A one-column table whose first key is the text `nan`. -/
def nanTable : Table := tableOf ["x".toList] [["nan".toList], ["1".toList]]

/-- The fields joined by single commas. -/
def joinFields : List CStr → CStr
  | [] => []
  | [f] => f
  | f :: g :: rest => f ++ ',' :: joinFields (g :: rest)

/-- The fields, each followed by a comma. -/
def commaEach : List CStr → CStr
  | [] => []
  | f :: fs => f ++ ',' :: commaEach fs

/-- The lines, each followed by a newline. -/
def textOf : List CStr → List Char
  | [] => []
  | l :: ls => l ++ '\n' :: textOf ls

/-- A header or cell that a saved file gives back on load: it is a C string
that fits its buffer, has no comma and no newline, is not empty, and does not end
in white space unless it is white space only. -/
def GoodCell (s : CStr) : Prop :=
  s ≠ [] ∧ ',' ∉ s ∧ '\n' ∉ s ∧ '\x00' ∉ s ∧ s.length < MAX_CELL_SIZE ∧
  (s.dropWhile isspace = [] ∨ s.getLast?.map isspace = some false)

/-- The conditions of `GoodCell` can be checked by evaluation. -/
instance (s : CStr) : Decidable (GoodCell s) := by
  unfold GoodCell
  infer_instance

/-- A table that a save followed by a load gives back: the counters are within
the grid, every header and cell in use is a `GoodCell`, and every line of the
saved text fits, with its newline, in one `fgets` of `MAX_LINE`. -/
structure RoundTrips (t : Table) : Prop where
  /-- The column count is within the grid. -/
  cols : t.num_cols ≤ MAX_COLS
  /-- The row count is within the grid. -/
  rows : t.num_rows ≤ MAX_ROWS
  /-- Every header in use is good. -/
  header : ∀ c, c < t.num_cols → GoodCell (t.headers c)
  /-- Every cell in use is good. -/
  cell : ∀ r, r < t.num_rows → ∀ c, c < t.num_cols → GoodCell (t.data r c)
  /-- The header line fits the line buffer. -/
  headerFits : (joinFields t.headerList).length + 2 ≤ MAX_LINE
  /-- Every data line fits the line buffer. -/
  lineFits : ∀ r, r < t.num_rows → (joinFields (rowOf t.data t.num_cols r)).length + 2 ≤ MAX_LINE

/-- A table with two columns and one row whose first cell is empty. -/
def gapTable : Table := tableOf ["a".toList, "b".toList] [[[], "x".toList]]

/-- The table left by the commands after `csv_execute` has run them in turn, as
the loop of `csv_loop` does, stopping at the first status 0; `none` when a
command runs into undefined behaviour. -/
def run : World → List (List CStr) → Option World
  | w, [] => some w
  | w, args :: rest =>
    match csv_execute w args with
    | none => none
    | some r => if r.1 = 0 then some r.2 else run r.2 rest

/-- A process in its initial state, with the given readable files (path and
content) and every path writable. -/
def startWorld (files : List (CStr × CStr)) : World :=
  ⟨empty_table,
   fun p => match files.find? (fun f => f.1 = p) with
     | some f => Except.ok f.2
     | none => Except.error "No such file or directory".toList,
   fun _ => none, [], []⟩

/-- Whether a number starts here (white space and sign already removed): a
digit, a point followed by a digit, or `inf` or `nan` in any letter case. -/
def startsNumber : List Char → Bool
  | [] => false
  | a :: rest =>
    a.isDigit
    || (a = '.' && (match rest with | d :: _ => d.isDigit | [] => false))
    || (match rest with
        | b :: c :: _ =>
          (a.toLower = 'i' && b.toLower = 'n' && c.toLower = 'f')
          || (a.toLower = 'n' && b.toLower = 'a' && c.toLower = 'n')
        | _ => false)

/-- Whether the text has a numeric prefix in the sense of `strtod`: after
leading white space and an optional sign, a number starts. -/
def hasNumericPrefix (s : CStr) : Bool :=
  match s.dropWhile isspace with
  | '-' :: r => startsNumber r
  | '+' :: r => startsNumber r
  | r => startsNumber r

/-- One printed line of `csv_show`: every cell left-justified in a field of 15,
then a newline. -/
def showLine (cells : List CStr) : List Char :=
  (cells.map fmtPad15).flatten ++ ['\n']

/-- The separator that `csv_show` prints under each header. -/
def dashes : CStr := "---------------".toList

/-- The process at its start with the file `a.csv` of the end-to-end scenario. -/
def scenario : World :=
  startWorld [("a.csv".toList, "name,age\nAlice,30\nBob,22\nCara,41\n".toList)]

/-- What the scenario observes of a command result: the status, the counters,
the headers, the rows and the text on `stdout`. -/
structure Observed where
  /-- The value that the command returns. -/
  status : Int
  /-- The row count of the table. -/
  num_rows : Nat
  /-- The column count of the table. -/
  num_cols : Nat
  /-- The headers in use. -/
  headers : List CStr
  /-- The rows in use. -/
  rows : List (List CStr)
  /-- Everything written to `stdout`. -/
  out : List Char
  deriving DecidableEq

/-- The observation of a command result. -/
def observe (r : Int × World) : Observed :=
  ⟨r.1, r.2.table.num_rows, r.2.table.num_cols, r.2.table.headerList, r.2.table.rows, r.2.out⟩

/-- The content of a file that can be opened for reading. -/
def fileContent (w : World) (path : CStr) : Option CStr :=
  match w.readFile path with
  | Except.ok content => some content
  | Except.error _ => none

/-- The tokens of the `i`-th buffer of a list of `fgets` buffers. -/
def lineTokens (bufs : List (List Char)) (i : Nat) : List CStr :=
  strtokAll (chompLine (bufs.getD i []))

/-- One call of the libc `strtok` with the delimiter `,` on the text that is left
of the line: skip the commas in front, return `NULL` (`none`) at the end of the
text, else the bytes up to the next comma as the token, and what follows that
comma as the text left for the next call. -/
def strtok (s : CStr) : Option (CStr × CStr) :=
  match s.dropWhile (fun c => c == ',') with
  | [] => none
  | c :: cs =>
    some ((c :: cs).takeWhile (fun x => x != ','),
          ((c :: cs).dropWhile (fun x => x != ',')).drop 1)

/-- The tokens returned by repeated `strtok` calls until `NULL`; each call
consumes at least one byte, so `fuel` above the length of the text is enough. -/
def strtokLoop : Nat → CStr → List CStr
  | 0, _ => []
  | fuel + 1, s =>
    match strtok s with
    | none => []
    | some r => r.1 :: strtokLoop fuel r.2

/-- A table with three columns and one row, all cells filled. -/
def threeCols : Table :=
  tableOf ["x".toList, "y".toList, "z".toList] [["p".toList, "q".toList, "r".toList]]

/-- The part of a table that is in use: the counters, the headers and the rows. -/
structure TableView where
  /-- The row count. -/
  num_rows : Nat
  /-- The column count. -/
  num_cols : Nat
  /-- The headers in use. -/
  headers : List CStr
  /-- The rows in use. -/
  rows : List (List CStr)
  deriving DecidableEq

/-- The part of a table that is in use. -/
def Table.view (t : Table) : TableView := ⟨t.num_rows, t.num_cols, t.headerList, t.rows⟩

/-- The table left by a load of a file with the given content, observed through
the part in use. -/
def loaded (t : Table) (content : List Char) : Option TableView :=
  (load_file t content).map Table.view

/-- The table that `csv_load` leaves, from the initial table, for the file
`a,b / x,y,z`. -/
def longLineTable : Table :=
  ⟨setCell (setCell empty_table.data 0 0 "x".toList) 0 1 "y".toList,
   setHeader (setHeader empty_table.headers 0 "a".toList) 1 "b".toList, 1, 2⟩

/-- The counters of the table are within the grid. -/
def Capacity (t : Table) : Prop := t.num_rows ≤ MAX_ROWS ∧ t.num_cols ≤ MAX_COLS

/-- A file whose header line has twenty fields, the last one of 264 bytes. -/
def overrunFile : List Char :=
  "a,b,c,d,e,f,g,h,i,j,k,l,m,n,o,p,q,r,s,".toList ++ List.replicate 264 'x' ++ "\n1\n".toList

/-- A one-column table with a `nan` key between two numbers. -/
def wallTable : Table := tableOf ["x".toList] [["2".toList], ["nan".toList], ["1".toList]]

/-! # Properties -/

/-! ## Loops and grids -/

theorem forLoop_zero {σ : Type} (body : Nat → σ → σ) (s : σ) : forLoop 0 body s = s := rfl

theorem forLoop_succ {σ : Type} (n : Nat) (body : Nat → σ → σ) (s : σ) :
    forLoop (n + 1) body s = body n (forLoop n body s) := by
  simp [forLoop, List.range_succ, List.foldl_append]

/-- Invariant rule for `forLoop`: an indexed invariant that each iteration
carries one step further holds at the end. -/
theorem forLoop_inv {σ : Type} (P : Nat → σ → Prop) (n : Nat) (body : Nat → σ → σ) (s : σ)
    (h0 : P 0 s) (hstep : ∀ i, i < n → ∀ x, P i x → P (i + 1) (body i x)) :
    P n (forLoop n body s) := by
  induction n with
  | zero => exact h0
  | succ k ih =>
    rw [forLoop_succ]
    exact hstep k (Nat.lt_succ_self k) _
      (ih (fun i hi x hx => hstep i (Nat.lt_succ_of_lt hi) x hx))

theorem copy_row_apply (src : Nat → Nat → CStr) (srow n drow : Nat) (dst : Nat → Nat → CStr)
    (r c : Nat) :
    copy_row src srow n drow dst r c = if r = drow ∧ c < n then src srow c else dst r c := by
  unfold copy_row
  induction n with
  | zero => simp [forLoop_zero]
  | succ k ih =>
    rw [forLoop_succ]
    simp only [setCell, ih]
    by_cases h1 : r = drow
    · by_cases h2 : c = k
      · simp [h1, h2]
      · have h3 : c < k + 1 ↔ c < k := by omega
        simp [h1, h2, h3]
    · simp [h1]

theorem copy_back_apply (temp : Nat → Nat → CStr) (k m : Nat) (d : Nat → Nat → CStr)
    (r c : Nat) :
    copy_back temp k m d r c = if r < k ∧ c < m then temp r c else d r c := by
  unfold copy_back
  induction k with
  | zero => simp [forLoop_zero]
  | succ k ih =>
    rw [forLoop_succ, copy_row_apply, ih]
    by_cases h1 : r = k
    · subst h1
      by_cases h3 : c < m <;> simp [h3]
    · have h3 : r < k + 1 ↔ r < k := by omega
      simp [h1, h3]

theorem swap_rows_apply (m j : Nat) (d : Nat → Nat → CStr) (r c : Nat) :
    swap_rows m j d r c =
      if c < m then (if r = j then d (j + 1) c else if r = j + 1 then d j c else d r c)
      else d r c := by
  unfold swap_rows
  induction m generalizing r c with
  | zero => simp [forLoop_zero]
  | succ k ih =>
    rw [forLoop_succ]
    simp only [setCell, ih]
    by_cases h3 : c = k
    · subst h3
      by_cases h1 : r = j
      · subst h1; simp
      · by_cases h2 : r = j + 1
        · subst h2; simp
        · simp [h1, h2]
    · have h4 : c < k + 1 ↔ c < k := by omega
      simp [h3, h4]

/-! ## Column lookup -/

theorem find_column_loop_neg (t : Table) (name : CStr) (n i : Nat) :
    find_column_loop t name n i = -1 ↔ ∀ k, i ≤ k → k < i + n → t.headers k ≠ name := by
  induction n generalizing i with
  | zero =>
    simp only [find_column_loop, true_iff]
    intro k h1 h2; omega
  | succ n ih =>
    unfold find_column_loop
    by_cases h : t.headers i = name
    · simp only [h, if_true]
      constructor
      · intro h1; omega
      · intro h1; exact absurd h (h1 i (Nat.le_refl i) (by omega))
    · simp only [h, if_false, ih]
      constructor
      · intro h1 k hk1 hk2
        by_cases hki : k = i
        · subst hki; exact h
        · exact h1 k (by omega) (by omega)
      · intro h1 k hk1 hk2
        exact h1 k (by omega) (by omega)

theorem find_column_loop_nat (t : Table) (name : CStr) (n i k : Nat) :
    find_column_loop t name n i = (k : Int) ↔
      (i ≤ k ∧ k < i + n ∧ t.headers k = name ∧ ∀ j, i ≤ j → j < k → t.headers j ≠ name) := by
  induction n generalizing i with
  | zero =>
    simp only [find_column_loop]
    constructor
    · intro h; omega
    · intro h; omega
  | succ n ih =>
    unfold find_column_loop
    by_cases h : t.headers i = name
    · simp only [h, if_true]
      constructor
      · intro h1
        have hik : i = k := by omega
        subst hik
        exact ⟨Nat.le_refl _, by omega, h, fun j h2 h3 => by omega⟩
      · rintro ⟨h1, _, _, h4⟩
        by_cases hik : i = k
        · subst hik; rfl
        · exact absurd h (h4 i (Nat.le_refl i) (by omega))
    · simp only [h, if_false, ih]
      constructor
      · rintro ⟨h1, h2, h3, h4⟩
        refine ⟨by omega, by omega, h3, ?_⟩
        intro j hj1 hj2
        by_cases hji : j = i
        · subst hji; exact h
        · exact h4 j (by omega) hj2
      · rintro ⟨h1, h2, h3, h4⟩
        have hik : i ≠ k := by
          intro hik; subst hik; exact h h3
        exact ⟨by omega, by omega, h3, fun j hj1 hj2 => h4 j (by omega) hj2⟩

theorem find_column_cases (t : Table) (name : CStr) :
    find_column t name = -1 ∨ ∃ k : Nat, find_column t name = (k : Int) ∧ k < t.num_cols
      ∧ t.headers k = name := by
  by_cases h : ∀ k, k < t.num_cols → t.headers k ≠ name
  · left
    exact (find_column_loop_neg t name t.num_cols 0).2 (fun k _ hk => h k (by omega))
  · right
    have h1 : ∃ k, k < t.num_cols ∧ t.headers k = name := by
      by_contra hcon
      exact h (fun k hk hk2 => hcon ⟨k, hk, hk2⟩)
    have hex : ∃ k, (k < t.num_cols ∧ t.headers k = name) := h1
    classical
    refine ⟨Nat.find hex, ?_, (Nat.find_spec hex).1, (Nat.find_spec hex).2⟩
    refine (find_column_loop_nat t name t.num_cols 0 _).2
      ⟨Nat.zero_le _, by have := (Nat.find_spec hex).1; omega, (Nat.find_spec hex).2, ?_⟩
    intro j _ hj hj2
    exact Nat.find_min hex hj ⟨by have := (Nat.find_spec hex).1; omega, hj2⟩

theorem find_column_lt (t : Table) (name : CStr) (c : Nat)
    (h : find_column t name = (c : Int)) : c < t.num_cols := by
  have := (find_column_loop_nat t name t.num_cols 0 c).1 h
  omega

/-- C5: `find_column` returns the lowest index below `num_cols` whose header is
byte-for-byte equal to the name, and returns `-1` exactly when no header among
the first `num_cols` equals the name; it always returns one of the two; the
match is case-sensitive (`Age` is not found under the name `age`). -/
theorem find_column_spec (t : Table) (name : CStr) :
    (∀ i : Nat, find_column t name = (i : Int) ↔
        (i < t.num_cols ∧ t.headers i = name ∧ ∀ j, j < i → t.headers j ≠ name)) ∧
    (find_column t name = -1 ↔ ∀ i, i < t.num_cols → t.headers i ≠ name) ∧
    (find_column t name = -1 ∨ ∃ i : Nat, find_column t name = (i : Int)) ∧
    find_column ⟨fun _ _ => [], fun _ => "Age".toList, 0, 1⟩ "age".toList = -1 := by
  refine ⟨?_, ?_, ?_, by decide⟩
  · intro i
    rw [find_column, find_column_loop_nat]
    constructor
    · rintro ⟨_, h2, h3, h4⟩
      exact ⟨by omega, h3, fun j hj => h4 j (Nat.zero_le j) hj⟩
    · rintro ⟨h2, h3, h4⟩
      exact ⟨Nat.zero_le i, by omega, h3, fun j _ hj => h4 j hj⟩
  · rw [find_column, find_column_loop_neg]
    constructor
    · intro h i hi; exact h i (Nat.zero_le i) (by omega)
    · intro h i _ hi; exact h i (by omega)
  · rcases find_column_cases t name with h | ⟨k, hk, _, _⟩
    · exact Or.inl h
    · exact Or.inr ⟨k, hk⟩

/-! ## Comparison of values -/

theorem compare_values_unknown (a op b : CStr) (h1 : op ≠ "==".toList) (h2 : op ≠ "!=".toList)
    (h3 : op ≠ ">".toList) (h4 : op ≠ "<".toList) : (compare_values a op b).1 = false := by
  unfold compare_values
  rw [if_neg h1, if_neg h2, if_neg h3, if_neg h4]

/-- C6: with the operator `==` the result of `compare_values` is true exactly when
the two strings are identical, and with `!=` it is the negation of that; there is
no numeric coercion: `5` and `5.0` are different. -/
theorem compare_values_eq_ne (a b : CStr) :
    ((compare_values a "==".toList b).1 = true ↔ a = b) ∧
    ((compare_values a "!=".toList b).1 = !(compare_values a "==".toList b).1) ∧
    (compare_values "5".toList "==".toList "5.0".toList).1 = false ∧
    (compare_values "5".toList "!=".toList "5.0".toList).1 = true := by
  refine ⟨?_, ?_, by decide, by decide⟩
  · simp [compare_values]
  · have hne : ¬ ("!=".toList = "==".toList) := by decide
    simp [compare_values, hne]

theorem readDecimal_no_digit (neg : Bool) (c : Char) (cs : List Char)
    (h1 : c.isDigit = false) (h2 : c ≠ '.') : readDecimal neg (c :: cs) = Dbl.zero := by
  simp [readDecimal, readDigits, h1]
  split
  · next r heq => simp at heq; exact absurd heq.1 h2
  · simp

theorem readDecimal_not_started (neg : Bool) (s : List Char)
    (h1 : ∀ a rest, s = a :: rest → a.isDigit = false)
    (h2 : ∀ d rest, s = '.' :: d :: rest → d.isDigit = false) :
    readDecimal neg s = Dbl.zero := by
  match s with
  | [] => simp [readDecimal, readDigits]
  | a :: rest =>
    have ha := h1 a rest rfl
    by_cases hdot : a = '.'
    · subst hdot
      match rest with
      | [] => simp [readDecimal, readDigits]
      | d :: rest2 =>
        have hd := h2 d rest2 rfl
        simp [readDecimal, readDigits, hd]
    · exact readDecimal_no_digit neg a rest ha hdot

theorem readNumber_not_started (neg : Bool) (s : List Char) (h : startsNumber s = false) :
    readNumber neg s = Dbl.zero := by
  have h1 : ∀ a rest, s = a :: rest → a.isDigit = false := by
    intro a rest hs
    subst hs
    simp only [startsNumber, Bool.or_eq_false_iff] at h
    exact h.1.1
  have h2 : ∀ d rest, s = '.' :: d :: rest → d.isDigit = false := by
    intro d rest hs
    subst hs
    simp only [startsNumber, Bool.or_eq_false_iff] at h
    simpa using h.1.2
  match s with
  | [] => exact readDecimal_not_started neg [] h1 h2
  | [a] => exact readDecimal_not_started neg [a] h1 h2
  | [a, b] => exact readDecimal_not_started neg [a, b] h1 h2
  | a :: b :: c :: rest =>
    have ha := h1 a _ rfl
    have h0 : a ≠ '0' := by
      intro e; subst e; simp at ha
    simp only [startsNumber, Bool.or_eq_false_iff] at h
    have h3 := h.2.1
    have h4 := h.2.2
    simp only [readNumber]
    rw [h3, h4]
    simp only [Bool.false_eq_true, if_false]
    have h5 : (a = '0' && b.toLower = 'x' && startsHex (c :: rest)) = false := by
      simp [h0]
    rw [h5]
    simp only [Bool.false_eq_true, if_false]
    exact readDecimal_not_started neg _ h1 h2

/-- Text with no numeric prefix parses as `0.0`. -/
theorem atof_no_prefix (s : CStr) (h : hasNumericPrefix s = false) : atof s = Dbl.zero := by
  unfold hasNumericPrefix at h
  unfold atof
  split
  · next r heq =>
    rw [heq] at h
    exact readNumber_not_started true r h
  · next r heq =>
    rw [heq] at h
    exact readNumber_not_started false r h
  · next r h1 h2 =>
    have h3 : startsNumber (List.dropWhile isspace s) = false := by
      split at h
      · next r2 heq => exact absurd heq (h1 r2)
      · next r2 heq => exact absurd heq (h2 r2)
      · exact h
    exact readNumber_not_started false _ h3

/-- C7: with `>` (with `<`) the result of `compare_values` is the C comparison
`atof(a) > atof(b)` (`atof(a) < atof(b)`) of the parsed operands; the parse never
fails: text with no numeric prefix parses as `0.0`, so `abc < 1` is true and
`abc > 0` is false. -/
theorem compare_values_gt_lt (a b : CStr) :
    ((compare_values a ">".toList b).1 = Dbl.gt (atof a) (atof b)) ∧
    ((compare_values a "<".toList b).1 = Dbl.lt (atof a) (atof b)) ∧
    (hasNumericPrefix a = false → atof a = Dbl.zero) ∧
    atof "abc".toList = Dbl.zero ∧
    atof "1".toList = Dbl.ofNat 1 ∧
    (compare_values "abc".toList "<".toList "1".toList).1 = true ∧
    (compare_values "abc".toList ">".toList "0".toList).1 = false := by
  refine ⟨?_, ?_, atof_no_prefix a, by decide, by decide!, by decide!, by decide!⟩
  · have h1 : ¬ (">".toList = "==".toList) := by decide
    have h2 : ¬ (">".toList = "!=".toList) := by decide
    unfold compare_values
    rw [if_neg h1, if_neg h2, if_pos rfl]
  · have h1 : ¬ ("<".toList = "==".toList) := by decide
    have h2 : ¬ ("<".toList = "!=".toList) := by decide
    have h3 : ¬ ("<".toList = ">".toList) := by decide
    unfold compare_values
    rw [if_neg h1, if_neg h2, if_neg h3, if_pos rfl]

/-- Instance of C7 at the operands `-hello` and `7`. -/
theorem compare_values_gt_lt_witness :
    atof "-hello".toList = Dbl.zero ∧
    (compare_values "-hello".toList ">".toList "7".toList).1
      = Dbl.gt (atof "-hello".toList) (atof "7".toList) :=
  ⟨(compare_values_gt_lt "-hello".toList "7".toList).2.2.1 (by decide),
   (compare_values_gt_lt "-hello".toList "7".toList).1⟩

/-! ## Rows of a grid -/

theorem rowOf_length (d : Nat → Nat → CStr) (m r : Nat) : (rowOf d m r).length = m := by
  simp [rowOf]

theorem rowsOf_length (d : Nat → Nat → CStr) (n m : Nat) : (rowsOf d n m).length = n := by
  simp [rowsOf]

theorem rowsOf_succ (d : Nat → Nat → CStr) (n m : Nat) :
    rowsOf d (n + 1) m = rowsOf d n m ++ [rowOf d m n] := by
  simp [rowsOf, List.range_succ]

theorem rowOf_getD (d : Nat → Nat → CStr) (m r c : Nat) (h : c < m) :
    (rowOf d m r).getD c [] = d r c := by
  simp [rowOf, List.getD, h]

theorem rowOf_congr (d e : Nat → Nat → CStr) (m r s : Nat)
    (h : ∀ c, c < m → d r c = e s c) : rowOf d m r = rowOf e m s := by
  unfold rowOf
  apply List.map_congr_left
  intro c hc
  exact h c (List.mem_range.1 hc)

theorem rowsOf_congr (d e : Nat → Nat → CStr) (n m : Nat)
    (h : ∀ r, r < n → ∀ c, c < m → d r c = e r c) : rowsOf d n m = rowsOf e n m := by
  unfold rowsOf
  apply List.map_congr_left
  intro r hr
  exact rowOf_congr d e m r r (h r (List.mem_range.1 hr))

theorem rowsOf_cell_eq (d e : Nat → Nat → CStr) (n m : Nat) (h : rowsOf d n m = rowsOf e n m)
    (r c : Nat) (hr : r < n) (hc : c < m) : d r c = e r c := by
  unfold rowsOf at h
  have h1 := (List.map_inj_left.1 h) r (List.mem_range.2 hr)
  unfold rowOf at h1
  exact (List.map_inj_left.1 h1) c (List.mem_range.2 hc)

theorem mem_rowsOf (d : Nat → Nat → CStr) (n m : Nat) (x : List CStr) :
    x ∈ rowsOf d n m ↔ ∃ r, r < n ∧ rowOf d m r = x := by
  simp [rowsOf]

/-! ## Filter -/

theorem filter_loop_rows (t : Table) (ci : Nat) (op value : CStr) (temp0 : Nat → Nat → CStr)
    (hci : ci < t.num_cols) (k : Nat) :
    rowsOf (forLoop k (filter_step t ci op value) ⟨temp0, 0, []⟩).temp
        (forLoop k (filter_step t ci op value) ⟨temp0, 0, []⟩).new_row_count t.num_cols
      = (rowsOf t.data k t.num_cols).filter (rowSatisfies ci op value) := by
  induction k with
  | zero => simp [forLoop_zero, rowsOf]
  | succ k ih =>
    rw [forLoop_succ, rowsOf_succ, List.filter_append]
    generalize forLoop k (filter_step t ci op value) ⟨temp0, 0, []⟩ = s at ih ⊢
    have hp : rowSatisfies ci op value (rowOf t.data t.num_cols k)
        = (compare_values (t.data k ci) op value).1 := by
      unfold rowSatisfies
      rw [rowOf_getD _ _ _ _ hci]
    by_cases hk : (compare_values (t.data k ci) op value).1 = true
    · have hs : filter_step t ci op value k s =
          { temp := copy_row t.data k t.num_cols s.new_row_count s.temp,
            new_row_count := s.new_row_count + 1,
            err := s.err ++ (compare_values (t.data k ci) op value).2 } := by
        simp [filter_step, hk]
      rw [hs]
      simp only [List.filter_cons, hp, hk, if_true, List.filter_nil]
      rw [rowsOf_succ, ← ih]
      congr 1
      · apply rowsOf_congr
        intro r hr c _
        rw [copy_row_apply]
        have : r ≠ s.new_row_count := by omega
        simp [this]
      · congr 1
        apply rowOf_congr
        intro c hc
        rw [copy_row_apply]
        simp [hc]
    · have hs : filter_step t ci op value k s
          = { s with err := s.err ++ (compare_values (t.data k ci) op value).2 } := by
        simp [filter_step, hk]
      rw [hs]
      simp only [List.filter_cons, hp, hk, List.filter_nil, List.append_nil]
      simpa using ih

theorem filter_table_rows (t : Table) (ci : Nat) (op value : CStr) (hci : ci < t.num_cols) :
    (filter_table t ci op value).rows = t.rows.filter (rowSatisfies ci op value) := by
  have h := filter_loop_rows t ci op value (fun _ _ => []) hci t.num_rows
  unfold Table.rows
  rw [← h]
  simp only [filter_table, filter_loop]
  apply rowsOf_congr
  intro r hr c hc
  rw [copy_back_apply]
  simp [hr, hc]

theorem filter_table_num_rows (t : Table) (ci : Nat) (op value : CStr) (hci : ci < t.num_cols) :
    (filter_table t ci op value).num_rows = (t.rows.filter (rowSatisfies ci op value)).length := by
  rw [← filter_table_rows t ci op value hci]
  simp [Table.rows, rowsOf_length]

theorem csv_filter_found (w : World) (cmd name op value : CStr) (extra : List CStr) (c : Nat)
    (hc : find_column w.table name = (c : Int)) :
    (csv_filter w (cmd :: name :: op :: value :: extra)).1 = 1 ∧
    (csv_filter w (cmd :: name :: op :: value :: extra)).2.table = filter_table w.table c op value := by
  have hne : ¬ ((c : Int) = -1) := by omega
  simp [csv_filter, hc, hne]

/-- C1: when `find_column` resolves the column name to index `c`, the rows of the
table after `csv_filter` are exactly the original rows whose cell in column `c`
satisfies `compare_values(cell, op, value)`, in their original order; the new row
count is the number of kept rows, and kept plus excluded rows make up the
original row count.  Headers and column count are unchanged. -/
theorem csv_filter_spec (w : World) (cmd name op value : CStr) (extra : List CStr) (c : Nat)
    (hc : find_column w.table name = (c : Int)) :
    (csv_filter w (cmd :: name :: op :: value :: extra)).2.table.rows
      = w.table.rows.filter (fun row => (compare_values (row.getD c []) op value).1) ∧
    (∀ row, row ∈ (csv_filter w (cmd :: name :: op :: value :: extra)).2.table.rows ↔
      (row ∈ w.table.rows ∧ (compare_values (row.getD c []) op value).1 = true)) ∧
    (csv_filter w (cmd :: name :: op :: value :: extra)).2.table.num_rows
      = (w.table.rows.filter (fun row => (compare_values (row.getD c []) op value).1)).length ∧
    (csv_filter w (cmd :: name :: op :: value :: extra)).2.table.num_rows
      + (w.table.rows.filter (fun row => !(compare_values (row.getD c []) op value).1)).length
      = w.table.num_rows ∧
    (csv_filter w (cmd :: name :: op :: value :: extra)).2.table.num_cols = w.table.num_cols ∧
    (csv_filter w (cmd :: name :: op :: value :: extra)).2.table.headers = w.table.headers := by
  have hci := find_column_lt w.table name c hc
  have hf := (csv_filter_found w cmd name op value extra c hc).2
  have hrows := filter_table_rows w.table c op value hci
  have hfun : rowSatisfies c op value
      = (fun row => (compare_values (row.getD c []) op value).1) := rfl
  rw [hf]
  rw [hfun] at hrows
  refine ⟨hrows, ?_, ?_, ?_, rfl, rfl⟩
  · intro row
    rw [hrows, List.mem_filter]
  · have := filter_table_num_rows w.table c op value hci
    rw [hfun] at this
    exact this
  · have h1 := filter_table_num_rows w.table c op value hci
    rw [hfun] at h1
    rw [h1]
    have h2 : w.table.rows.length = w.table.num_rows := by simp [Table.rows, rowsOf_length]
    rw [← h2]
    have h3 := List.length_eq_length_filter_add
      (l := w.table.rows) (fun row => (compare_values (row.getD c []) op value).1)
    omega

/-- Instance of C1: filtering `people` by `age > 25`. -/
theorem csv_filter_spec_witness :
    (csv_filter (worldOf people)
        ["filter".toList, "age".toList, ">".toList, "25".toList]).2.table.rows
      = people.rows.filter (fun row => (compare_values (row.getD 1 []) ">".toList "25".toList).1) :=
  (csv_filter_spec (worldOf people) "filter".toList "age".toList ">".toList "25".toList [] 1
    (by decide)).1

/-- C8: an operator other than `==`, `!=`, `>` and `<` makes `compare_values`
return false for all operands; `csv_filter` with such an operator on a column
that exists does not abort: it completes with every row excluded, leaves the
table with zero rows, and returns 1 (continue). -/
theorem unknown_operator_filter (op : CStr) (h1 : op ≠ "==".toList) (h2 : op ≠ "!=".toList)
    (h3 : op ≠ ">".toList) (h4 : op ≠ "<".toList) :
    (∀ a b, (compare_values a op b).1 = false) ∧
    ∀ (w : World) (cmd name value : CStr) (extra : List CStr) (c : Nat),
      find_column w.table name = (c : Int) →
      (csv_filter w (cmd :: name :: op :: value :: extra)).1 = 1 ∧
      (csv_filter w (cmd :: name :: op :: value :: extra)).2.table.num_rows = 0 ∧
      (csv_filter w (cmd :: name :: op :: value :: extra)).2.table.rows = [] := by
  have hfalse : ∀ a b, (compare_values a op b).1 = false :=
    fun a b => compare_values_unknown a op b h1 h2 h3 h4
  refine ⟨hfalse, ?_⟩
  intro w cmd name value extra c hc
  have hci := find_column_lt w.table name c hc
  have hf := csv_filter_found w cmd name op value extra c hc
  have hrows : (filter_table w.table c op value).rows = [] := by
    rw [filter_table_rows w.table c op value hci, List.filter_eq_nil_iff]
    intro row _
    simp [rowSatisfies, hfalse]
  refine ⟨hf.1, ?_, ?_⟩
  · rw [hf.2, filter_table_num_rows w.table c op value hci,
      ← filter_table_rows w.table c op value hci, hrows]
    rfl
  · rw [hf.2, hrows]

/-- Instance of C8: filtering `people` with the operator `~`. -/
theorem unknown_operator_filter_witness :
    (csv_filter (worldOf people)
        ["filter".toList, "age".toList, "~".toList, "25".toList]).2.table.num_rows = 0 :=
  ((unknown_operator_filter "~".toList (by decide) (by decide) (by decide) (by decide)).2
    (worldOf people) "filter".toList "age".toList "25".toList [] 1 (by decide)).2.1

theorem find_column_congr (t u : Table) (name : CStr) (h1 : t.headers = u.headers)
    (h2 : t.num_cols = u.num_cols) : find_column t name = find_column u name := by
  unfold find_column
  rw [h2]
  generalize u.num_cols = n
  generalize (0 : Nat) = i
  induction n generalizing i with
  | zero => rfl
  | succ n ih => simp only [find_column_loop, h1, ih]

theorem filter_table_idem (t : Table) (c : Nat) (op value : CStr) (hc : c < t.num_cols) :
    filter_table (filter_table t c op value) c op value = filter_table t c op value := by
  have hrows1 := filter_table_rows t c op value hc
  generalize ht1 : filter_table t c op value = t1 at hrows1 ⊢
  have hcols : t1.num_cols = t.num_cols := by rw [← ht1]; rfl
  have hc1 : c < t1.num_cols := by omega
  have hloop := filter_loop_rows t1 c op value (fun _ _ => []) hc1 t1.num_rows
  have hall : (rowsOf t1.data t1.num_rows t1.num_cols).filter (rowSatisfies c op value)
      = rowsOf t1.data t1.num_rows t1.num_cols := by
    have : rowsOf t1.data t1.num_rows t1.num_cols = t1.rows := rfl
    rw [this, hrows1, List.filter_filter]
    simp
  rw [hall] at hloop
  have hlen := congrArg List.length hloop
  rw [rowsOf_length, rowsOf_length] at hlen
  have hn : (filter_loop t1 c op value (fun _ _ => [])).new_row_count = t1.num_rows := hlen
  have htemp : rowsOf (filter_loop t1 c op value (fun _ _ => [])).temp t1.num_rows t1.num_cols
      = rowsOf t1.data t1.num_rows t1.num_cols := by
    have h := hloop
    rw [hlen] at h
    exact h
  have hdata : copy_back (filter_loop t1 c op value (fun _ _ => [])).temp
      (filter_loop t1 c op value (fun _ _ => [])).new_row_count t1.num_cols t1.data = t1.data := by
    funext r col
    rw [copy_back_apply, hn]
    by_cases h : r < t1.num_rows ∧ col < t1.num_cols
    · rw [if_pos h]
      exact rowsOf_cell_eq _ _ _ _ htemp r col h.1 h.2
    · rw [if_neg h]
  unfold filter_table
  simp only [hn]
  rw [hn] at hdata
  rw [hdata]

theorem csv_filter_table_cases (w : World) (args : List CStr) :
    (csv_filter w args).2.table = w.table ∨
    ∃ (cmd name op value : CStr) (extra : List CStr) (c : Nat),
      args = cmd :: name :: op :: value :: extra ∧
      find_column w.table name = (c : Int) ∧
      (csv_filter w args).2.table = filter_table w.table c op value := by
  match args with
  | [] => left; rfl
  | [_] => left; rfl
  | [_, _] => left; rfl
  | [_, _, _] => left; rfl
  | cmd :: name :: op :: value :: extra =>
    rcases find_column_cases w.table name with h | ⟨c, hc, _, _⟩
    · left
      simp [csv_filter, h]
    · right
      exact ⟨cmd, name, op, value, extra, c, rfl, hc,
        (csv_filter_found w cmd name op value extra c hc).2⟩

/-- C10: running `csv_filter` twice with the same arguments leaves the table in
the same state as running it once (every field of the table is equal, whether
the command filters or stops on an error). -/
theorem csv_filter_idempotent (w : World) (args : List CStr) :
    (csv_filter (csv_filter w args).2 args).2.table = (csv_filter w args).2.table := by
  rcases csv_filter_table_cases w args with h | ⟨cmd, name, op, value, extra, c, hargs, hc, h⟩
  · rcases csv_filter_table_cases (csv_filter w args).2 args with h2 | ⟨cmd, name, op, value, extra, c, hargs, hc, h2⟩
    · rw [h2]
    · rw [h] at hc
      subst hargs
      have h3 := (csv_filter_found w cmd name op value extra c hc).2
      rw [h2, h, ← h3, h]
  · subst hargs
    have hci := find_column_lt w.table name c hc
    have hc2 : find_column (csv_filter w (cmd :: name :: op :: value :: extra)).2.table name
        = (c : Int) := by
      rw [← hc, h]
      exact find_column_congr _ _ name rfl rfl
    rw [(csv_filter_found _ cmd name op value extra c hc2).2, h]
    exact filter_table_idem w.table c op value hci

/-! ## The dispatcher -/

theorem csv_execute_cons (w : World) (cmd : CStr) (rest : List CStr) :
    csv_execute w (cmd :: rest) =
      if cmd = "load".toList then csv_load w (cmd :: rest)
      else if cmd = "show".toList then some (csv_show w (cmd :: rest))
      else if cmd = "filter".toList then some (csv_filter w (cmd :: rest))
      else if cmd = "sort".toList then some (csv_sort w (cmd :: rest))
      else if cmd = "save".toList then some (csv_save w (cmd :: rest))
      else if cmd = "count".toList then some (csv_count w (cmd :: rest))
      else if cmd = "columns".toList then some (csv_columns w (cmd :: rest))
      else if cmd = "help".toList then some (csv_help w (cmd :: rest))
      else if cmd = "exit".toList then some (csv_exit w (cmd :: rest))
      else some (1, { w with
        out := w.out ++ "csv: unknown command: ".toList ++ cmd ++ "\n".toList
                ++ "Type 'help' for available commands\n".toList }) := by
  simp only [csv_execute, execute_loop, builtin_str, builtin_func, List.length_cons,
    List.length_nil, List.getD_cons_zero, List.getD_cons_succ]
  by_cases h1 : cmd = "load".toList
  · simp only [if_pos h1]
  simp only [if_neg h1]
  by_cases h2 : cmd = "show".toList
  · simp only [if_pos h2]
  simp only [if_neg h2]
  by_cases h3 : cmd = "filter".toList
  · simp only [if_pos h3]
  simp only [if_neg h3]
  by_cases h4 : cmd = "sort".toList
  · simp only [if_pos h4]
  simp only [if_neg h4]
  by_cases h5 : cmd = "save".toList
  · simp only [if_pos h5]
  simp only [if_neg h5]
  by_cases h6 : cmd = "count".toList
  · simp only [if_pos h6]
  simp only [if_neg h6]
  by_cases h7 : cmd = "columns".toList
  · simp only [if_pos h7]
  simp only [if_neg h7]
  by_cases h8 : cmd = "help".toList
  · simp only [if_pos h8]
  simp only [if_neg h8]
  by_cases h9 : cmd = "exit".toList
  · simp only [if_pos h9]
  simp only [if_neg h9]

theorem csv_load_status (w : World) (args : List CStr) (r : Int × World)
    (h : csv_load w args = some r) : r.1 = 1 := by
  unfold csv_load at h
  split at h
  · split at h
    · simp at h; rw [← h]
    · split at h
      · simp at h
      · simp at h; rw [← h]
  · simp at h; rw [← h]

theorem csv_load_none (w : World) (args : List CStr) (h : csv_load w args = none) :
    ∃ cmd path rest content, args = cmd :: path :: rest ∧
      w.readFile path = Except.ok content ∧ load_file w.table content = none := by
  unfold csv_load at h
  split at h
  · next cmd path rest =>
    split at h
    · simp at h
    · next content hread =>
      split at h
      · next hload => exact ⟨cmd, path, rest, content, rfl, hread, hload⟩
      · simp at h
  · simp at h

theorem csv_filter_status (w : World) (args : List CStr) : (csv_filter w args).1 = 1 := by
  unfold csv_filter
  split
  · simp only []
    split <;> rfl
  · rfl

theorem csv_sort_status (w : World) (args : List CStr) : (csv_sort w args).1 = 1 := by
  unfold csv_sort
  split
  · simp only []
    split <;> rfl
  · rfl

theorem csv_save_status (w : World) (args : List CStr) : (csv_save w args).1 = 1 := by
  unfold csv_save
  split
  · split <;> rfl
  · rfl

theorem csv_count_status (w : World) (args : List CStr) : (csv_count w args).1 = 1 := by
  unfold csv_count
  split <;> rfl

theorem status_one (x : Int) (hx : x = 1) (P : Prop) (hP : ¬ P) :
    (x = 0 ↔ P) ∧ (x = 0 ∨ x = 1) :=
  ⟨⟨fun h => by omega, fun h => absurd h hP⟩, Or.inr hx⟩

/-- C9: `csv_execute` returns 0 exactly when the command name `args[0]` is
`exit`, and 1 in every other case: no token, an unknown command, and every other
command whether it succeeds or fails.  The call has a defined result except for a
`load` of a file in which a field overruns a cell buffer. -/
theorem csv_execute_status (w : World) (args : List CStr) :
    (∀ r, csv_execute w args = some r →
      ((r.1 = 0 ↔ args.head? = some "exit".toList) ∧ (r.1 = 0 ∨ r.1 = 1))) ∧
    (args.head? = some "exit".toList → csv_execute w args = some (0, w)) ∧
    (csv_execute w args = none →
      ∃ path rest content, args = "load".toList :: path :: rest ∧
        w.readFile path = Except.ok content ∧ load_file w.table content = none) := by
  match args with
  | [] =>
    refine ⟨?_, ?_, ?_⟩
    · intro r h
      simp [csv_execute] at h
      rw [← h]
      simp
    · intro h; simp at h
    · intro h; simp [csv_execute] at h
  | cmd :: rest =>
    rw [csv_execute_cons]
    simp only [List.head?_cons, Option.some.injEq]
    by_cases h1 : cmd = "load".toList
    · rw [if_pos h1]
      have hne : cmd ≠ "exit".toList := by rw [h1]; decide
      refine ⟨?_, fun h => absurd h hne, ?_⟩
      · intro r h
        exact status_one _ (csv_load_status w _ r h) _ hne
      · intro h
        obtain ⟨cmd1, path, rest1, content, ha, hb, hc⟩ := csv_load_none w _ h
        simp only [List.cons.injEq] at ha
        exact ⟨path, rest1, content, by rw [h1, ha.2], hb, hc⟩
    rw [if_neg h1]
    have one : ∀ (f : World → List CStr → Int × World) (name : CStr),
        (∀ a, (f w a).1 = 1) → name ≠ "exit".toList → cmd = name →
        (∀ r, some (f w (cmd :: rest)) = some r →
          ((r.1 = 0 ↔ cmd = "exit".toList) ∧ (r.1 = 0 ∨ r.1 = 1))) ∧
        (cmd = "exit".toList → some (f w (cmd :: rest)) = some (0, w)) ∧
        (some (f w (cmd :: rest)) = none → ∃ path rest1 content,
          cmd :: rest = "load".toList :: path :: rest1 ∧
          w.readFile path = Except.ok content ∧ load_file w.table content = none) := by
      intro f name hf hname hcmd
      have hne : cmd ≠ "exit".toList := by rw [hcmd]; exact hname
      refine ⟨?_, fun h => absurd h hne, fun h => by simp at h⟩
      intro r h
      simp only [Option.some.injEq] at h
      rw [← h]
      exact status_one _ (hf _) _ hne
    by_cases h2 : cmd = "show".toList
    · rw [if_pos h2]; exact one csv_show _ (fun _ => rfl) (by decide) h2
    rw [if_neg h2]
    by_cases h3 : cmd = "filter".toList
    · rw [if_pos h3]; exact one csv_filter _ (csv_filter_status w) (by decide) h3
    rw [if_neg h3]
    by_cases h4 : cmd = "sort".toList
    · rw [if_pos h4]; exact one csv_sort _ (csv_sort_status w) (by decide) h4
    rw [if_neg h4]
    by_cases h5 : cmd = "save".toList
    · rw [if_pos h5]; exact one csv_save _ (csv_save_status w) (by decide) h5
    rw [if_neg h5]
    by_cases h6 : cmd = "count".toList
    · rw [if_pos h6]; exact one csv_count _ (csv_count_status w) (by decide) h6
    rw [if_neg h6]
    by_cases h7 : cmd = "columns".toList
    · rw [if_pos h7]; exact one csv_columns _ (fun _ => rfl) (by decide) h7
    rw [if_neg h7]
    by_cases h8 : cmd = "help".toList
    · rw [if_pos h8]; exact one csv_help _ (fun _ => rfl) (by decide) h8
    rw [if_neg h8]
    by_cases h9 : cmd = "exit".toList
    · rw [if_pos h9]
      refine ⟨?_, fun _ => rfl, fun h => by simp at h⟩
      intro r h
      simp only [Option.some.injEq] at h
      rw [← h]
      exact ⟨⟨fun _ => h9, fun _ => rfl⟩, Or.inl rfl⟩
    rw [if_neg h9]
    refine ⟨?_, fun h => absurd h h9, fun h => by simp at h⟩
    intro r h
    simp only [Option.some.injEq] at h
    rw [← h]
    exact status_one _ rfl _ h9

/-- Instance of C9: the command `count` on `people` continues, `exit` stops. -/
theorem csv_execute_status_witness :
    ((1 : Int) = 0 ↔ ["count".toList].head? = some "exit".toList) ∧
    csv_execute (worldOf people) ["exit".toList] = some (0, worldOf people) :=
  ⟨((csv_execute_status (worldOf people) ["count".toList]).1
      (1, { worldOf people with out := (worldOf people).out ++ "3 rows\n".toList })
      (by rfl)).1,
   (csv_execute_status (worldOf people) ["exit".toList]).2.1 (by decide)⟩

/-! ## Order of the doubles -/

theorem Dbl.gt_irrefl (a : Dbl) : Dbl.gt a a = false := by
  cases a <;> simp [Dbl.gt, Dbl.lt]

theorem Dbl.gt_notNaN (a b : Dbl) (h : Dbl.gt a b = true) :
    a.isNaN = false ∧ b.isNaN = false := by
  cases a <;> cases b <;> simp_all [Dbl.gt, Dbl.lt, Dbl.isNaN]

theorem Dbl.le_refl (a : Dbl) (h : a.isNaN = false) : Dbl.le a a = true := by
  cases a <;> simp_all [Dbl.le, Dbl.isNaN]

theorem Dbl.le_of_gt (a b : Dbl) (h : Dbl.gt a b = true) : Dbl.le b a = true := by
  cases a <;> cases b <;> simp_all [Dbl.gt, Dbl.lt, Dbl.le]
  omega

theorem Dbl.le_of_not_gt (a b : Dbl) (h : Dbl.gt a b = false) (ha : a.isNaN = false)
    (hb : b.isNaN = false) : Dbl.le a b = true := by
  cases a <;> cases b <;> simp_all [Dbl.gt, Dbl.lt, Dbl.le, Dbl.isNaN]

theorem Dbl.le_trans (a b c : Dbl) (h1 : Dbl.le a b = true) (h2 : Dbl.le b c = true) :
    Dbl.le a c = true := by
  cases a <;> cases b <;> cases c <;> simp_all [Dbl.le]
  omega

theorem Dbl.not_gt_of_le (a b : Dbl) (h : Dbl.le a b = true) : Dbl.gt a b = false := by
  cases a <;> cases b <;> simp_all [Dbl.gt, Dbl.lt, Dbl.le]

theorem Dbl.le_nan_left (b : Dbl) : Dbl.le Dbl.nan b = false := by
  cases b <;> rfl

/-! ## Bubble sort on the keys -/

theorem forLoop_map {σ τ : Type} (f : σ → τ) (n : Nat) (body : Nat → σ → σ)
    (body2 : Nat → τ → τ) (h : ∀ i, i < n → ∀ s, f (body i s) = body2 i (f s)) (s : σ) :
    f (forLoop n body s) = forLoop n body2 (f s) := by
  induction n with
  | zero => rfl
  | succ k ih =>
    rw [forLoop_succ, forLoop_succ, h k (Nat.lt_succ_self k),
      ih (fun i hi => h i (Nat.lt_succ_of_lt hi))]

theorem swapKeys_isNaN (j : Nat) (key : Nat → Dbl) (h : Dbl.gt (key j) (key (j + 1)) = true)
    (r : Nat) : (swapKeys j key r).isNaN = (key r).isNaN := by
  have hn := Dbl.gt_notNaN _ _ h
  unfold swapKeys
  by_cases h1 : r = j
  · subst h1; simp [hn.1, hn.2]
  · by_cases h2 : r = j + 1
    · subst h2; simp [hn.1, hn.2]
    · simp [h1, h2]

theorem NoNaN_mono (key : Nat → Dbl) (q p q1 p1 : Nat) (h : NoNaN key q p) (hq : q ≤ q1)
    (hp : p1 ≤ p) : NoNaN key q1 p1 :=
  fun r h1 h2 => h r (Nat.le_trans hq h1) (Nat.le_trans h2 hp)

/-- One step of the inner loop carries the invariant of a pass one position
further: the rows above `b` are settled, and the key at the current position is
not below any key before it that is reachable without crossing a NaN. -/
theorem stepKeys_inv (n b j : Nat) (key : Nat → Dbl) (hj : j < b)
    (ha : ∀ p q, b < p → p < n → q < p → NoNaN key q p → Dbl.le (key q) (key p) = true)
    (hb : ∀ q, q ≤ j → NoNaN key q j → Dbl.le (key q) (key j) = true) :
    (∀ p q, b < p → p < n → q < p → NoNaN (stepKeys j key) q p →
      Dbl.le (stepKeys j key q) (stepKeys j key p) = true) ∧
    (∀ q, q ≤ j + 1 → NoNaN (stepKeys j key) q (j + 1) →
      Dbl.le (stepKeys j key q) (stepKeys j key (j + 1)) = true) := by
  by_cases hgt : Dbl.gt (key j) (key (j + 1)) = true
  · have hstep : stepKeys j key = swapKeys j key := by simp [stepKeys, hgt]
    rw [hstep]
    have hn := Dbl.gt_notNaN _ _ hgt
    have hnan : ∀ q p, NoNaN (swapKeys j key) q p → NoNaN key q p := by
      intro q p h r h1 h2
      rw [← swapKeys_isNaN j key hgt r]
      exact h r h1 h2
    constructor
    · intro p q hp1 hp2 hqp hno
      have hno1 := hnan q p hno
      have hp : swapKeys j key p = key p := by
        have e1 : p ≠ j := by omega
        have e2 : p ≠ j + 1 := by omega
        simp [swapKeys, e1, e2]
      rw [hp]
      by_cases h1 : q = j
      · subst h1
        have hq : swapKeys q key q = key (q + 1) := by simp [swapKeys]
        rw [hq]
        exact ha p (q + 1) hp1 hp2 (by omega)
          (NoNaN_mono key q p (q + 1) p hno1 (by omega) (Nat.le_refl p))
      · by_cases h2 : q = j + 1
        · subst h2
          have hq : swapKeys j key (j + 1) = key j := by simp [swapKeys]
          rw [hq]
          refine ha p j hp1 hp2 (by omega) ?_
          intro r hr1 hr2
          by_cases hrj : r = j
          · subst hrj; exact hn.1
          · exact hno1 r (by omega) hr2
        · have hq : swapKeys j key q = key q := by simp [swapKeys, h1, h2]
          rw [hq]
          exact ha p q hp1 hp2 hqp hno1
    · intro q hq hno
      have hno1 := hnan q (j + 1) hno
      have hp : swapKeys j key (j + 1) = key j := by simp [swapKeys]
      rw [hp]
      by_cases h2 : q = j + 1
      · subst h2
        rw [hp]
        exact Dbl.le_refl _ hn.1
      · by_cases h1 : q = j
        · subst h1
          have hq2 : swapKeys q key q = key (q + 1) := by simp [swapKeys]
          rw [hq2]
          exact Dbl.le_of_gt _ _ hgt
        · have hq2 : swapKeys j key q = key q := by simp [swapKeys, h1, h2]
          rw [hq2]
          exact hb q (by omega) (NoNaN_mono key q (j + 1) q j hno1 (Nat.le_refl q) (by omega))
  · have hgt2 : Dbl.gt (key j) (key (j + 1)) = false := by simpa using hgt
    have hstep : stepKeys j key = key := by simp [stepKeys, hgt2]
    rw [hstep]
    refine ⟨ha, ?_⟩
    intro q hq hno
    by_cases h2 : q = j + 1
    · subst h2
      exact Dbl.le_refl _ (hno (j + 1) (Nat.le_refl _) (Nat.le_refl _))
    · have hqj : q ≤ j := by omega
      have h1 := hb q hqj (NoNaN_mono key q (j + 1) q j hno (Nat.le_refl q) (by omega))
      have h3 := Dbl.le_of_not_gt _ _ hgt2 (hno j hqj (by omega))
        (hno (j + 1) (by omega) (Nat.le_refl _))
      exact Dbl.le_trans _ _ _ h1 h3

/-- One pass of the inner loop settles one more position. -/
theorem pass_inv (n i : Nat) (key : Nat → Dbl) (hi : i + 1 < n)
    (ho : ∀ p q, n - i ≤ p → p < n → q < p → NoNaN key q p → Dbl.le (key q) (key p) = true) :
    ∀ p q, n - (i + 1) ≤ p → p < n → q < p →
      NoNaN (forLoop (n - i - 1) stepKeys key) q p →
      Dbl.le (forLoop (n - i - 1) stepKeys key q) (forLoop (n - i - 1) stepKeys key p) = true := by
  have hinv := forLoop_inv
    (fun j (k : Nat → Dbl) =>
      (∀ p q, n - i - 1 < p → p < n → q < p → NoNaN k q p → Dbl.le (k q) (k p) = true) ∧
      (∀ q, q ≤ j → NoNaN k q j → Dbl.le (k q) (k j) = true))
    (n - i - 1) stepKeys key
    ⟨fun p q h1 h2 h3 h4 => ho p q (by omega) h2 h3 h4,
     fun q hq hno => by
       have : q = 0 := by omega
       subst this
       exact Dbl.le_refl _ (hno 0 (Nat.le_refl _) (Nat.le_refl _))⟩
    (fun j hj k hk => stepKeys_inv n (n - i - 1) j k hj hk.1 hk.2)
  intro p q hp1 hp2 hqp hno
  by_cases hpb : p = n - i - 1
  · subst hpb
    exact hinv.2 q (by omega) hno
  · exact hinv.1 p q (by omega) hp2 hqp hno

/-- After the two nested loops, every position is settled. -/
theorem bubble_keys_sorted (n : Nat) (key : Nat → Dbl) :
    ∀ p q, p < n → q < p →
      NoNaN (forLoop (n - 1) (fun i k => forLoop (n - i - 1) stepKeys k) key) q p →
      Dbl.le (forLoop (n - 1) (fun i k => forLoop (n - i - 1) stepKeys k) key q)
        (forLoop (n - 1) (fun i k => forLoop (n - i - 1) stepKeys k) key p) = true := by
  have hinv := forLoop_inv
    (fun i (k : Nat → Dbl) =>
      ∀ p q, n - i ≤ p → p < n → q < p → NoNaN k q p → Dbl.le (k q) (k p) = true)
    (n - 1) (fun i k => forLoop (n - i - 1) stepKeys k) key
    (fun p q h1 h2 _ _ => by omega)
    (fun i hi k hk => pass_inv n i k (by omega) hk)
  intro p q hp hqp hno
  exact hinv p q (by omega) hp hqp hno

/-! ## `csv_sort` on the grid -/

theorem keyAt_sort_step (m c j : Nat) (d : Nat → Nat → CStr) (hc : c < m) :
    (fun r => keyAt (sort_step m c j d) c r) = stepKeys j (fun r => keyAt d c r) := by
  unfold sort_step stepKeys
  simp only [keyAt]
  by_cases h : Dbl.gt (atof (d j c)) (atof (d (j + 1) c)) = true
  · rw [if_pos h, if_pos h]
    funext r
    simp only [swapKeys, swap_rows_apply, if_pos hc]
    by_cases h1 : r = j
    · simp [h1]
    · by_cases h2 : r = j + 1
      · simp [h2]
      · simp [h1, h2]
  · rw [if_neg h, if_neg h]

theorem keyAt_sort_table (t : Table) (c : Nat) (hc : c < t.num_cols) :
    (fun r => keyAt (sort_table t c).data c r)
      = forLoop (t.num_rows - 1) (fun i k => forLoop (t.num_rows - i - 1) stepKeys k)
          (fun r => keyAt t.data c r) := by
  unfold sort_table
  simp only []
  exact forLoop_map (fun d => fun r => keyAt d c r) (t.num_rows - 1) _ _
    (fun i _ s =>
      forLoop_map (fun d => fun r => keyAt d c r) (t.num_rows - i - 1) _ _
        (fun j _ s2 => keyAt_sort_step t.num_cols c j s2 hc) s) t.data

theorem sort_table_sorted (t : Table) (c : Nat) (hc : c < t.num_cols) (i : Nat)
    (hi : i + 1 < t.num_rows)
    (h1 : (atof ((sort_table t c).data i c)).isNaN = false)
    (h2 : (atof ((sort_table t c).data (i + 1) c)).isNaN = false) :
    Dbl.le (atof ((sort_table t c).data i c)) (atof ((sort_table t c).data (i + 1) c)) = true := by
  have hk := keyAt_sort_table t c hc
  have hs := bubble_keys_sorted t.num_rows (fun r => keyAt t.data c r) (i + 1) i hi
    (Nat.lt_succ_self i)
  rw [← hk] at hs
  apply hs
  intro r hr1 hr2
  by_cases hri : r = i
  · subst hri; exact h1
  · have : r = i + 1 := by omega
    subst this; exact h2

theorem csv_sort_found (w : World) (cmd name : CStr) (extra : List CStr) (c : Nat)
    (hc : find_column w.table name = (c : Int)) :
    (csv_sort w (cmd :: name :: extra)).1 = 1 ∧
    (csv_sort w (cmd :: name :: extra)).2.table = sort_table w.table c := by
  have hne : ¬ ((c : Int) = -1) := by omega
  simp [csv_sort, hc, hne]

/-! ### Rows as a list under a swap of two adjacent rows -/

theorem rowsOf_split (d : Nat → Nat → CStr) (n m j : Nat) (h : j + 1 < n) :
    rowsOf d n m = rowsOf d j m ++ (rowOf d m j :: rowOf d m (j + 1) ::
      (List.range (n - (j + 2))).map (fun i => rowOf d m (j + 2 + i))) := by
  have hn : n = j + (2 + (n - (j + 2))) := by omega
  conv => lhs; rw [hn]
  unfold rowsOf
  rw [List.range_add, List.map_append, List.range_add]
  simp [List.range_succ, Nat.add_assoc]

theorem rowsOf_swap (d : Nat → Nat → CStr) (n m j : Nat) (h : j + 1 < n) :
    rowsOf (swap_rows m j d) n m = rowsOf d j m ++ (rowOf d m (j + 1) :: rowOf d m j ::
      (List.range (n - (j + 2))).map (fun i => rowOf d m (j + 2 + i))) := by
  rw [rowsOf_split (swap_rows m j d) n m j h]
  congr 1
  · apply rowsOf_congr
    intro r hr c hc
    rw [swap_rows_apply]
    have e1 : r ≠ j := by omega
    have e2 : r ≠ j + 1 := by omega
    simp [e1, e2]
  · congr 1
    · apply rowOf_congr
      intro c hc
      rw [swap_rows_apply]
      simp [hc]
    · congr 1
      · apply rowOf_congr
        intro c hc
        rw [swap_rows_apply]
        simp [hc]
      · apply List.map_congr_left
        intro i _
        apply rowOf_congr
        intro c hc
        rw [swap_rows_apply]
        have e1 : j + 2 + i ≠ j := by omega
        have e2 : j + 2 + i ≠ j + 1 := by omega
        simp [e1, e2]

/-- One step of the inner loop keeps the rows a permutation of the rows before,
and keeps the order of the rows that satisfy a predicate `keep` no two of whose
rows are ever exchanged. -/
theorem sort_step_rows (d : Nat → Nat → CStr) (n m c j : Nat) (hc : c < m) (h : j + 1 < n)
    (keep : List CStr → Bool)
    (hkeep : ∀ x y, keep x = true → keep y = true → Dbl.gt (rowKey c x) (rowKey c y) = false) :
    (rowsOf (sort_step m c j d) n m).Perm (rowsOf d n m) ∧
    (rowsOf (sort_step m c j d) n m).filter keep = (rowsOf d n m).filter keep := by
  unfold sort_step
  by_cases hgt : Dbl.gt (atof (d j c)) (atof (d (j + 1) c)) = true
  · rw [if_pos hgt, rowsOf_swap d n m j h, rowsOf_split d n m j h]
    constructor
    · exact List.Perm.append_left _ (List.Perm.swap _ _ _)
    · have hx : rowKey c (rowOf d m j) = atof (d j c) := by
        unfold rowKey; rw [rowOf_getD _ _ _ _ hc]
      have hy : rowKey c (rowOf d m (j + 1)) = atof (d (j + 1) c) := by
        unfold rowKey; rw [rowOf_getD _ _ _ _ hc]
      have hnot : ¬ (keep (rowOf d m j) = true ∧ keep (rowOf d m (j + 1)) = true) := by
        rintro ⟨k1, k2⟩
        have := hkeep _ _ k1 k2
        rw [hx, hy, hgt] at this
        exact Bool.noConfusion this
      simp only [List.filter_append, List.filter_cons]
      congr 1
      by_cases k1 : keep (rowOf d m j) = true
      · have k2 : keep (rowOf d m (j + 1)) = false := by
          by_contra hk
          exact hnot ⟨k1, by simpa using hk⟩
        simp [k1, k2]
      · have k1f : keep (rowOf d m j) = false := by simpa using k1
        simp [k1f]
  · rw [if_neg hgt]
    exact ⟨List.Perm.refl _, rfl⟩

theorem sort_table_rows (t : Table) (c : Nat) (hc : c < t.num_cols)
    (keep : List CStr → Bool)
    (hkeep : ∀ x y, keep x = true → keep y = true → Dbl.gt (rowKey c x) (rowKey c y) = false) :
    (sort_table t c).rows.Perm t.rows ∧ (sort_table t c).rows.filter keep = t.rows.filter keep := by
  have hinv := forLoop_inv
    (fun _ (d : Nat → Nat → CStr) =>
      (rowsOf d t.num_rows t.num_cols).Perm t.rows ∧
      (rowsOf d t.num_rows t.num_cols).filter keep = t.rows.filter keep)
    (t.num_rows - 1)
    (fun i d => forLoop (t.num_rows - i - 1) (sort_step t.num_cols c) d) t.data
    ⟨List.Perm.refl _, rfl⟩
    (fun i hi d hd =>
      forLoop_inv
        (fun _ (e : Nat → Nat → CStr) =>
          (rowsOf e t.num_rows t.num_cols).Perm t.rows ∧
          (rowsOf e t.num_rows t.num_cols).filter keep = t.rows.filter keep)
        (t.num_rows - i - 1) (sort_step t.num_cols c) d hd
        (fun j hj e he => by
          have hs := sort_step_rows e t.num_rows t.num_cols c j hc (by omega) keep hkeep
          exact ⟨hs.1.trans he.1, hs.2.trans he.2⟩))
  exact hinv

theorem Dbl.gt_of_eq_eq (a b k : Dbl) (ha : Dbl.eq a k = true) (hb : Dbl.eq b k = true) :
    Dbl.gt a b = false := by
  cases a <;> cases b <;> cases k <;> simp_all [Dbl.gt, Dbl.lt, Dbl.eq]

/-- C2 as amended: when `find_column` resolves the column name to index `c`, after
`csv_sort` no row has a key greater than the key of the next row, and for all
adjacent rows `i` and `i + 1` whose keys are both not NaN,
`atof(row[i][c]) <= atof(row[i+1][c])`. -/
theorem csv_sort_sorted (w : World) (cmd name : CStr) (extra : List CStr) (c : Nat)
    (hc : find_column w.table name = (c : Int)) (i : Nat)
    (hi : i + 1 < (csv_sort w (cmd :: name :: extra)).2.table.num_rows) :
    Dbl.gt (atof ((csv_sort w (cmd :: name :: extra)).2.table.data i c))
      (atof ((csv_sort w (cmd :: name :: extra)).2.table.data (i + 1) c)) = false ∧
    ((atof ((csv_sort w (cmd :: name :: extra)).2.table.data i c)).isNaN = false →
     (atof ((csv_sort w (cmd :: name :: extra)).2.table.data (i + 1) c)).isNaN = false →
     Dbl.le (atof ((csv_sort w (cmd :: name :: extra)).2.table.data i c))
      (atof ((csv_sort w (cmd :: name :: extra)).2.table.data (i + 1) c)) = true) := by
  have hci := find_column_lt w.table name c hc
  have hf := (csv_sort_found w cmd name extra c hc).2
  rw [hf] at hi ⊢
  have hle := sort_table_sorted w.table c hci i hi
  refine ⟨?_, hle⟩
  by_cases hgt : Dbl.gt (atof ((sort_table w.table c).data i c))
      (atof ((sort_table w.table c).data (i + 1) c)) = true
  · have hn := Dbl.gt_notNaN _ _ hgt
    have := Dbl.not_gt_of_le _ _ (hle hn.1 hn.2)
    rw [hgt] at this
    exact Bool.noConfusion this
  · simpa using hgt

/-- Instance of the amended C2: sorting `people` by `age`, rows 0 and 1. -/
theorem csv_sort_sorted_witness :
    Dbl.gt (atof ((csv_sort (worldOf people) ["sort".toList, "age".toList]).2.table.data 0 1))
      (atof ((csv_sort (worldOf people) ["sort".toList, "age".toList]).2.table.data 1 1))
      = false :=
  (csv_sort_sorted (worldOf people) "sort".toList "age".toList [] 1 (by decide) 0
    (by decide)).1

/-- C2 fails as stated: in the table with the one column `x` and the rows `nan`
and `1`, `csv_sort` by `x` leaves the rows in that order, and
`atof("nan") <= atof("1")` is false. -/
theorem csv_sort_nan_counterexample :
    find_column nanTable "x".toList = 0 ∧
    (csv_sort (worldOf nanTable) ["sort".toList, "x".toList]).2.table.rows
      = [["nan".toList], ["1".toList]] ∧
    0 + 1 < (csv_sort (worldOf nanTable) ["sort".toList, "x".toList]).2.table.num_rows ∧
    Dbl.le (atof ((csv_sort (worldOf nanTable) ["sort".toList, "x".toList]).2.table.data 0 0))
      (atof ((csv_sort (worldOf nanTable) ["sort".toList, "x".toList]).2.table.data 1 0))
      = false := by
  refine ⟨by decide, by decide!, by decide, ?_⟩
  have h : (csv_sort (worldOf nanTable) ["sort".toList, "x".toList]).2.table.data 0 0
      = "nan".toList := by decide!
  rw [h]
  have h2 : atof "nan".toList = Dbl.nan := by decide
  rw [h2]
  exact Dbl.le_nan_left _

/-- C3: when `find_column` resolves the column name to index `c`, the rows after
`csv_sort` are a permutation of the rows before it (whole rows, same row count,
same headers and column count), and the sort is stable: for every key value `k`,
the rows whose key equals `k` appear in the same order as before the sort. -/
theorem csv_sort_stable_perm (w : World) (cmd name : CStr) (extra : List CStr) (c : Nat)
    (hc : find_column w.table name = (c : Int)) :
    (csv_sort w (cmd :: name :: extra)).2.table.rows.Perm w.table.rows ∧
    (csv_sort w (cmd :: name :: extra)).2.table.num_rows = w.table.num_rows ∧
    (csv_sort w (cmd :: name :: extra)).2.table.num_cols = w.table.num_cols ∧
    (csv_sort w (cmd :: name :: extra)).2.table.headers = w.table.headers ∧
    (∀ k : Dbl,
      (csv_sort w (cmd :: name :: extra)).2.table.rows.filter
          (fun row => Dbl.eq (atof (row.getD c [])) k)
        = w.table.rows.filter (fun row => Dbl.eq (atof (row.getD c [])) k)) ∧
    (∀ k : Dbl,
      (csv_sort w (cmd :: name :: extra)).2.table.rows.filter
          (fun row => decide (atof (row.getD c []) = k))
        = w.table.rows.filter (fun row => decide (atof (row.getD c []) = k))) := by
  have hci := find_column_lt w.table name c hc
  have hf := (csv_sort_found w cmd name extra c hc).2
  rw [hf]
  refine ⟨?_, rfl, rfl, rfl, ?_, ?_⟩
  · exact (sort_table_rows w.table c hci (fun _ => false) (fun _ _ h => by simp at h)).1
  · intro k
    exact (sort_table_rows w.table c hci (fun row => Dbl.eq (atof (row.getD c [])) k)
      (fun x y hx hy => Dbl.gt_of_eq_eq _ _ k hx hy)).2
  · intro k
    refine (sort_table_rows w.table c hci (fun row => decide (atof (row.getD c []) = k))
      (fun x y hx hy => ?_)).2
    have hx1 : atof (x.getD c []) = k := by simpa using hx
    have hy1 : atof (y.getD c []) = k := by simpa using hy
    unfold rowKey
    rw [hx1, hy1]
    exact Dbl.gt_irrefl k

/-- Instance of C3: sorting `people` by `age` permutes its rows. -/
theorem csv_sort_stable_perm_witness :
    (csv_sort (worldOf people) ["sort".toList, "age".toList]).2.table.rows.Perm people.rows :=
  (csv_sort_stable_perm (worldOf people) "sort".toList "age".toList [] 1 (by decide)).1

/-! ## The text written by `csv_save` -/

theorem joinFields_snoc (l : List CStr) (x : CStr) :
    joinFields (l ++ [x]) = commaEach l ++ x := by
  induction l with
  | nil => simp [joinFields, commaEach]
  | cons f fs ih =>
    cases fs with
    | nil => simp [joinFields, commaEach]
    | cons g gs =>
      have e : joinFields ((f :: g :: gs) ++ [x])
          = f ++ ',' :: joinFields ((g :: gs) ++ [x]) := rfl
      rw [e, ih]
      simp [commaEach]

theorem commaEach_snoc (l : List CStr) (x : CStr) :
    commaEach (l ++ [x]) = commaEach l ++ (x ++ [',']) := by
  induction l with
  | nil => simp [commaEach]
  | cons f fs ih => simp [commaEach, ih]

theorem textOf_snoc (ls : List CStr) (l : CStr) :
    textOf (ls ++ [l]) = textOf ls ++ (l ++ ['\n']) := by
  induction ls with
  | nil => simp [textOf]
  | cons f fs ih => simp [textOf, ih]

theorem save_line_prefix (n : Nat) (cell : Nat → CStr) (o : List Char) (k : Nat) (hk : k < n) :
    forLoop k (fun col o =>
        if col < n - 1 then o ++ cell col ++ ",".toList else o ++ cell col) o
      = o ++ commaEach ((List.range k).map cell) := by
  induction k with
  | zero => simp [forLoop_zero, commaEach]
  | succ k ih =>
    rw [forLoop_succ, ih (by omega)]
    have h : k < n - 1 := by omega
    rw [if_pos h, List.range_succ, List.map_append, List.map_singleton, commaEach_snoc]
    simp

theorem save_line_eq (n : Nat) (cell : Nat → CStr) (o : List Char) :
    save_line n cell o = o ++ (joinFields ((List.range n).map cell) ++ ['\n']) := by
  unfold save_line
  cases n with
  | zero => simp [forLoop_zero, joinFields]
  | succ k =>
    rw [forLoop_succ, save_line_prefix (k + 1) cell o k (Nat.lt_succ_self k)]
    have h : ¬ (k < k + 1 - 1) := by omega
    rw [if_neg h, List.range_succ, List.map_append, List.map_singleton, joinFields_snoc]
    simp

/-- The text of `csv_save` is the header line followed by one line per row, each
line being the cells joined by commas and ended by a newline. -/
theorem save_text_eq (t : Table) :
    save_text t = textOf (joinFields t.headerList :: t.rows.map joinFields) := by
  unfold save_text
  have h : ∀ k o, forLoop k (fun row o => save_line t.num_cols (t.data row) o) o
      = o ++ textOf ((rowsOf t.data k t.num_cols).map joinFields) := by
    intro k o
    induction k with
    | zero => simp [forLoop_zero, rowsOf, textOf]
    | succ k ih =>
      rw [forLoop_succ, ih, save_line_eq, rowsOf_succ, List.map_append, List.map_singleton,
        textOf_snoc]
      simp [rowOf]
  rw [h, save_line_eq]
  simp [textOf, Table.rows, Table.headerList]

/-! ## Reading the saved text back -/

theorem fgets_line (l rest : List Char) (k : Nat) (hl : '\n' ∉ l) (hk : l.length < k) :
    fgets k (l ++ '\n' :: rest) = (l ++ ['\n'], rest) := by
  induction l generalizing k with
  | nil =>
    cases k with
    | zero => omega
    | succ k => simp [fgets]
  | cons c cs ih =>
    cases k with
    | zero => simp at hk
    | succ k =>
      have hc : c ≠ '\n' := by
        intro h; exact hl (by simp [h])
      have hcs : '\n' ∉ cs := by
        intro h; exact hl (by simp [h])
      have e : fgets (k + 1) (c :: (cs ++ '\n' :: rest))
          = if c = '\n' then ([c], cs ++ '\n' :: rest)
            else (c :: (fgets k (cs ++ '\n' :: rest)).1, (fgets k (cs ++ '\n' :: rest)).2) := rfl
      rw [List.cons_append, e, if_neg hc, ih k hcs (by simpa using hk)]
      rfl

theorem textOf_length_cons (l : CStr) (ls : List CStr) :
    (textOf (l :: ls)).length = l.length + 1 + (textOf ls).length := by
  simp [textOf]
  omega

theorem fgetsAll_textOf (lines : List CStr) (fuel : Nat)
    (hl : ∀ l ∈ lines, '\n' ∉ l ∧ l.length + 2 ≤ MAX_LINE)
    (hf : (textOf lines).length ≤ fuel) :
    fgetsAll fuel (textOf lines) = lines.map (fun l => l ++ ['\n']) := by
  induction lines generalizing fuel with
  | nil =>
    cases fuel <;> simp [fgetsAll, textOf]
  | cons l ls ih =>
    rw [textOf_length_cons] at hf
    cases fuel with
    | zero => omega
    | succ f =>
      have h1 := hl l (List.mem_cons_self l ls)
      have hne : ¬ (textOf (l :: ls) = []) := by simp [textOf]
      have hg : fgets (MAX_LINE - 1) (textOf (l :: ls)) = (l ++ ['\n'], textOf ls) := by
        simp only [textOf]
        exact fgets_line l (textOf ls) (MAX_LINE - 1) h1.1 (by omega)
      simp only [fgetsAll, if_neg hne, hg, List.map_cons]
      rw [ih f (fun x hx => hl x (List.mem_cons_of_mem l hx)) (by omega)]

theorem chompLine_line (l : CStr) (h1 : '\n' ∉ l) (h2 : '\x00' ∉ l) :
    chompLine (l ++ ['\n']) = l := by
  unfold chompLine
  induction l with
  | nil => simp [List.takeWhile]
  | cons c cs ih =>
    have hc1 : c ≠ '\n' := by
      intro h; exact h1 (by simp [h])
    have hc2 : c ≠ '\x00' := by
      intro h; exact h2 (by simp [h])
    have hcs1 : '\n' ∉ cs := by
      intro h; exact h1 (by simp [h])
    have hcs2 : '\x00' ∉ cs := by
      intro h; exact h2 (by simp [h])
    simp only [List.cons_append, List.takeWhile_cons]
    simp [hc1, hc2, ih hcs1 hcs2]

theorem splitFields_single (f : CStr) (h : ',' ∉ f) : splitFields f = [f] := by
  induction f with
  | nil => rfl
  | cons c cs ih =>
    have hc : c ≠ ',' := by
      intro h1; exact h (by simp [h1])
    have hcs : ',' ∉ cs := by
      intro h1; exact h (by simp [h1])
    simp [splitFields, hc, ih hcs]

theorem splitFields_append_comma (f s : CStr) (h : ',' ∉ f) :
    splitFields (f ++ ',' :: s) = f :: splitFields s := by
  induction f with
  | nil => simp [splitFields]
  | cons c cs ih =>
    have hc : c ≠ ',' := by
      intro h1; exact h (by simp [h1])
    have hcs : ',' ∉ cs := by
      intro h1; exact h (by simp [h1])
    simp [splitFields, hc, ih hcs]

theorem splitFields_joinFields (f : CStr) (fs : List CStr)
    (h : ∀ x ∈ f :: fs, ',' ∉ x) : splitFields (joinFields (f :: fs)) = f :: fs := by
  induction fs generalizing f with
  | nil => exact splitFields_single f (h f (List.mem_cons_self f []))
  | cons g gs ih =>
    simp only [joinFields]
    rw [splitFields_append_comma f _ (h f (List.mem_cons_self _ _)),
      ih g (fun x hx => h x (List.mem_cons_of_mem f hx))]

theorem strtokAll_joinFields (fs : List CStr) (h : ∀ x ∈ fs, ',' ∉ x ∧ x ≠ []) :
    strtokAll (joinFields fs) = fs := by
  unfold strtokAll
  cases fs with
  | nil => simp [joinFields, splitFields]
  | cons f gs =>
    rw [splitFields_joinFields f gs (fun x hx => (h x hx).1), List.filter_eq_self]
    intro x hx
    have := (h x hx).2
    cases x with
    | nil => exact absurd rfl this
    | cons c cs => rfl

theorem trimScan_last (str : CStr) (x : Char) (hne : str ≠ [])
    (hx : str.getLast? = some x) (hsp : isspace x = false) :
    trimScan str (str.length - 1) + 1 = str.length := by
  have hlen : 0 < str.length := List.length_pos.2 hne
  have hget : str.getD (str.length - 1) 'x' = x := by
    rw [List.getD_eq_getElem?_getD, ← List.getLast?_eq_getElem?, hx]
    rfl
  cases hk : str.length - 1 with
  | zero =>
    simp only [trimScan]
    omega
  | succ e =>
    rw [hk] at hget
    simp only [trimScan, hget, hsp]
    simp only [Bool.false_eq_true, if_false]
    omega

theorem trim_fixed (s : CStr)
    (h : s.dropWhile isspace = [] ∨ ∃ x, s.getLast? = some x ∧ isspace x = false) :
    trim s = s := by
  unfold trim
  by_cases h0 : s.dropWhile isspace = []
  · simp only [h0, if_true]
  · simp only [if_neg h0]
    rcases h with h | ⟨x, hx, hsp⟩
    · exact absurd h h0
    · have hs : s.takeWhile isspace ++ s.dropWhile isspace = s :=
        List.takeWhile_append_dropWhile isspace s
      have hlast : (s.dropWhile isspace).getLast? = some x := by
        rw [← List.getLast?_append_of_ne_nil (s.takeWhile isspace) h0, hs]
        exact hx
      rw [trimScan_last _ x h0 hlast hsp, List.take_length, hs]

theorem trim_good (s : CStr) (h : GoodCell s) : trim s = s := by
  apply trim_fixed
  rcases h.2.2.2.2.2 with h1 | h1
  · exact Or.inl h1
  · right
    cases hl : s.getLast? with
    | none => rw [hl] at h1; simp at h1
    | some x =>
      rw [hl] at h1
      exact ⟨x, rfl, by simpa using h1⟩

/-- The header loop on good fields stores them all. -/
theorem load_header_loop_good (cells : List CStr) (t : Table)
    (hg : ∀ x ∈ cells, GoodCell x) (hn : t.num_cols + cells.length ≤ MAX_COLS) :
    ∃ u, load_header_loop cells t = some u ∧ u.num_cols = t.num_cols + cells.length ∧
      u.data = t.data ∧ u.num_rows = t.num_rows ∧
      (∀ i, i < t.num_cols → u.headers i = t.headers i) ∧
      (∀ i, i < cells.length → u.headers (t.num_cols + i) = cells.getD i []) := by
  induction cells generalizing t with
  | nil => exact ⟨t, rfl, rfl, rfl, rfl, fun _ _ => rfl, fun i hi => by simp at hi⟩
  | cons x xs ih =>
    have hx := hg x (List.mem_cons_self x xs)
    have h1 : t.num_cols < MAX_COLS := by simp at hn; omega
    have h2 : x.length < MAX_CELL_SIZE := hx.2.2.2.2.1
    simp only [load_header_loop, if_pos h1, trim_good x hx, if_pos h2]
    obtain ⟨u, hu, hu1, hu2, hu3, hu4, hu5⟩ :=
      ih { t with headers := setHeader t.headers t.num_cols x, num_cols := t.num_cols + 1 }
        (fun y hy => hg y (List.mem_cons_of_mem x hy)) (by simp at hn ⊢; omega)
    refine ⟨u, hu, ?_, hu2, hu3, ?_, ?_⟩
    · simp at hu1 ⊢; omega
    · intro i hi
      rw [hu4 i (by simp; omega)]
      have : i ≠ t.num_cols := by omega
      simp [setHeader, this]
    · intro i hi
      cases i with
      | zero =>
        rw [Nat.add_zero, hu4 t.num_cols (by simp)]
        simp [setHeader]
      | succ j =>
        have := hu5 j (by simpa using hi)
        simp only [List.getD_cons_succ]
        rw [← this]
        congr 1
        simp only []
        omega

/-- The cell loop on good fields stores them all in the row `num_rows`. -/
theorem load_cell_loop_good (cells : List CStr) (col : Nat) (t : Table)
    (hg : ∀ x ∈ cells, GoodCell x) (hn : col + cells.length ≤ t.num_cols) :
    ∃ u, load_cell_loop cells col t = some u ∧ u.num_cols = t.num_cols ∧
      u.num_rows = t.num_rows ∧ u.headers = t.headers ∧
      (∀ r c, r ≠ t.num_rows → u.data r c = t.data r c) ∧
      (∀ c, c < col → u.data t.num_rows c = t.data t.num_rows c) ∧
      (∀ i, i < cells.length → u.data t.num_rows (col + i) = cells.getD i []) := by
  induction cells generalizing col t with
  | nil => exact ⟨t, rfl, rfl, rfl, rfl, fun _ _ _ => rfl, fun _ _ => rfl, fun i hi => by simp at hi⟩
  | cons x xs ih =>
    have hx := hg x (List.mem_cons_self x xs)
    have h1 : col < t.num_cols := by simp at hn; omega
    have h2 : x.length < MAX_CELL_SIZE := hx.2.2.2.2.1
    simp only [load_cell_loop, if_pos h1, trim_good x hx, if_pos h2]
    obtain ⟨u, hu, hu1, hu2, hu3, hu4, hu5, hu6⟩ :=
      ih (col + 1) { t with data := setCell t.data t.num_rows col x }
        (fun y hy => hg y (List.mem_cons_of_mem x hy)) (by simp at hn ⊢; omega)
    refine ⟨u, hu, hu1, hu2, hu3, ?_, ?_, ?_⟩
    · intro r c hr
      rw [hu4 r c hr]
      simp [setCell, hr]
    · intro c hc
      rw [hu5 c (by omega)]
      have : c ≠ col := by omega
      simp [setCell, this]
    · intro i hi
      cases i with
      | zero =>
        rw [Nat.add_zero, hu5 col (by omega)]
        simp [setCell]
      | succ j =>
        have := hu6 j (by simpa using hi)
        simp only [List.getD_cons_succ]
        rw [← this]
        congr 1
        omega

theorem mem_joinFields (fs : List CStr) (c : Char) (h : c ∈ joinFields fs) :
    c = ',' ∨ ∃ f ∈ fs, c ∈ f := by
  induction fs with
  | nil => simp [joinFields] at h
  | cons f gs ih =>
    cases gs with
    | nil =>
      simp only [joinFields] at h
      exact Or.inr ⟨f, List.mem_cons_self _ _, h⟩
    | cons g rest =>
      simp only [joinFields, List.mem_append, List.mem_cons] at h
      rcases h with h | h | h
      · exact Or.inr ⟨f, List.mem_cons_self _ _, h⟩
      · exact Or.inl h
      · rcases ih h with h1 | ⟨x, hx, hc⟩
        · exact Or.inl h1
        · exact Or.inr ⟨x, List.mem_cons_of_mem f hx, hc⟩

theorem chompLine_joinFields (fs : List CStr) (h : ∀ x ∈ fs, GoodCell x) :
    chompLine (joinFields fs ++ ['\n']) = joinFields fs := by
  apply chompLine_line
  · intro hc
    rcases mem_joinFields fs _ hc with h1 | ⟨f, hf, hcf⟩
    · exact absurd h1 (by decide)
    · exact (h f hf).2.2.1 hcf
  · intro hc
    rcases mem_joinFields fs _ hc with h1 | ⟨f, hf, hcf⟩
    · exact absurd h1 (by decide)
    · exact (h f hf).2.2.2.1 hcf

theorem tokens_of_line (fs : List CStr) (h : ∀ x ∈ fs, GoodCell x) :
    strtokAll (chompLine (joinFields fs ++ ['\n'])) = fs := by
  rw [chompLine_joinFields fs h]
  exact strtokAll_joinFields fs (fun x hx => ⟨(h x hx).2.1, (h x hx).1⟩)

/-- The row loop on the lines of good rows stores every row. -/
theorem load_row_loop_good (rows : List (List CStr)) (t : Table)
    (hg : ∀ row ∈ rows, row.length = t.num_cols ∧ ∀ x ∈ row, GoodCell x)
    (hn : t.num_rows + rows.length ≤ MAX_ROWS) :
    ∃ u, load_row_loop (rows.map (fun row => joinFields row ++ ['\n'])) t = some u ∧
      u.num_cols = t.num_cols ∧ u.headers = t.headers ∧
      u.num_rows = t.num_rows + rows.length ∧
      (∀ r c, r < t.num_rows → u.data r c = t.data r c) ∧
      (∀ i, i < rows.length → ∀ c, c < t.num_cols →
        u.data (t.num_rows + i) c = (rows.getD i []).getD c []) := by
  induction rows generalizing t with
  | nil => exact ⟨t, rfl, rfl, rfl, rfl, fun _ _ _ => rfl, fun i hi => by simp at hi⟩
  | cons row rest ih =>
    have hrow := hg row (List.mem_cons_self row rest)
    have h1 : t.num_rows < MAX_ROWS := by simp at hn; omega
    obtain ⟨t1, ht1, ha, hb, hc, hd, _, hf⟩ :=
      load_cell_loop_good row 0 t hrow.2 (by omega)
    simp only [List.map_cons, load_row_loop, if_pos h1, tokens_of_line row hrow.2, ht1]
    obtain ⟨u, hu, hu1, hu2, hu3, hu4, hu5⟩ :=
      ih { t1 with num_rows := t1.num_rows + 1 }
        (fun y hy => by
          have := hg y (List.mem_cons_of_mem row hy)
          exact ⟨by rw [this.1]; exact ha.symm, this.2⟩)
        (by simp at hn ⊢; omega)
    refine ⟨u, hu, by rw [hu1]; exact ha, by rw [hu2]; exact hc, ?_, ?_, ?_⟩
    · simp at hu3 ⊢; omega
    · intro r c hr
      rw [hu4 r c (by simp; omega)]
      exact hd r c (by omega)
    · intro i hi c hcc
      cases i with
      | zero =>
        rw [Nat.add_zero, hu4 t.num_rows c (by simp; omega)]
        have := hf c (by omega)
        rw [Nat.zero_add] at this
        simpa using this
      | succ j =>
        have := hu5 j (by simpa using hi) c (by simp; omega)
        simp only [List.getD_cons_succ]
        rw [← this]
        congr 1
        simp only []
        omega

theorem headerList_getD (t : Table) (i : Nat) (h : i < t.num_cols) :
    t.headerList.getD i [] = t.headers i := by
  simp [Table.headerList, List.getD, h]

theorem rowsOf_getD (d : Nat → Nat → CStr) (n m r : Nat) (h : r < n) :
    (rowsOf d n m).getD r [] = rowOf d m r := by
  simp [rowsOf, List.getD, h]

theorem good_line (fs : List CStr) (h : ∀ x ∈ fs, GoodCell x) : '\n' ∉ joinFields fs := by
  intro hc
  rcases mem_joinFields fs _ hc with h1 | ⟨f, hf, hcf⟩
  · exact absurd h1 (by decide)
  · exact (h f hf).2.2.1 hcf

/-- Loading the text saved from a table that satisfies `RoundTrips`, from any
table state, gives back its headers and rows. -/
theorem load_save_text (t t0 : Table) (h : RoundTrips t) :
    ∃ u, load_file t0 (save_text t) = some u ∧ u.num_cols = t.num_cols ∧
      u.num_rows = t.num_rows ∧ u.headerList = t.headerList ∧ u.rows = t.rows ∧
      save_text u = save_text t := by
  have hhead : ∀ x ∈ t.headerList, GoodCell x := by
    intro x hx
    simp only [Table.headerList, List.mem_map, List.mem_range] at hx
    obtain ⟨c, hc, rfl⟩ := hx
    exact h.header c hc
  have hrow : ∀ row ∈ t.rows, row.length = t.num_cols ∧ ∀ x ∈ row, GoodCell x := by
    intro row hrow
    obtain ⟨r, hr, rfl⟩ := (mem_rowsOf _ _ _ _).1 hrow
    refine ⟨rowOf_length _ _ _, ?_⟩
    intro x hx
    simp only [rowOf, List.mem_map, List.mem_range] at hx
    obtain ⟨c, hc, rfl⟩ := hx
    exact h.cell r hr c hc
  have hlines : ∀ l ∈ joinFields t.headerList :: t.rows.map joinFields,
      '\n' ∉ l ∧ l.length + 2 ≤ MAX_LINE := by
    intro l hl
    rcases List.mem_cons.1 hl with h1 | h1
    · rw [h1]
      exact ⟨good_line _ hhead, h.headerFits⟩
    · obtain ⟨row, hr, rfl⟩ := List.mem_map.1 h1
      refine ⟨good_line _ (hrow row hr).2, ?_⟩
      obtain ⟨r, hr2, rfl⟩ := (mem_rowsOf _ _ _ _).1 hr
      exact h.lineFits r hr2
  have hfg := fgetsAll_textOf _ (save_text t).length hlines (by rw [save_text_eq])
  rw [← save_text_eq] at hfg
  obtain ⟨u1, hu1, ha1, _, _, _, ha5⟩ :=
    load_header_loop_good t.headerList { t0 with num_cols := 0 } hhead
      (by simp [Table.headerList]; exact h.cols)
  have hlen : t.headerList.length = t.num_cols := by simp [Table.headerList]
  obtain ⟨u, hu, hb1, hb2, hb3, _, hb5⟩ :=
    load_row_loop_good t.rows { u1 with num_rows := 0 }
      (fun row hr => by
        refine ⟨?_, (hrow row hr).2⟩
        rw [(hrow row hr).1]
        simp at ha1
        simp [ha1, hlen])
      (by simp [Table.rows, rowsOf_length]; exact h.rows)
  have hcols : u.num_cols = t.num_cols := by
    rw [hb1]; simp at ha1; simp [ha1, hlen]
  have hrows : u.num_rows = t.num_rows := by
    rw [hb3]; simp [Table.rows, rowsOf_length]
  have hheaders : u.headerList = t.headerList := by
    unfold Table.headerList
    rw [hcols]
    apply List.map_congr_left
    intro i hi
    have hi2 := List.mem_range.1 hi
    rw [hb2]
    have := ha5 i (by rw [hlen]; exact hi2)
    simp only [Nat.zero_add] at this
    simp only []
    rw [this, headerList_getD t i hi2]
  have hrs : u.rows = t.rows := by
    unfold Table.rows
    rw [hcols, hrows]
    apply rowsOf_congr
    intro r hr c hc
    have := hb5 r (by simp [Table.rows, rowsOf_length]; exact hr) c
      (by simp at ha1; simp [ha1, hlen]; exact hc)
    simp only [Nat.zero_add] at this
    rw [this]
    have e : t.rows.getD r [] = rowOf t.data t.num_cols r := rowsOf_getD _ _ _ _ hr
    rw [e, rowOf_getD _ _ _ _ hc]
  refine ⟨u, ?_, hcols, hrows, hheaders, hrs, ?_⟩
  · unfold load_file
    rw [hfg]
    simp only [List.map_cons, tokens_of_line _ hhead, hu1, List.map_map]
    exact hu
  · rw [save_text_eq, save_text_eq, hheaders, hrs]

/-- C4 as amended: for every table in which every header and cell in use has no
comma and no newline, is not empty, does not end in white space (unless it is
white space only) and fits its buffer, and whose saved lines fit the line buffer,
loading the text that `csv_save` writes, from any table state, gives a table
with the same headers and the same rows in the same order, and saving that table
writes the same text; the same holds for the commands `save` and `load` on one
path. -/
theorem save_load_roundtrip (t : Table) (h : RoundTrips t) :
    (∀ t0 : Table, ∃ u, load_file t0 (save_text t) = some u ∧ u.num_cols = t.num_cols ∧
      u.num_rows = t.num_rows ∧ u.headerList = t.headerList ∧ u.rows = t.rows ∧
      save_text u = save_text t) ∧
    (∀ (w : World) (cmd1 cmd2 path : CStr) (extra1 extra2 : List CStr),
      w.table = t → w.writeError path = none →
      ∃ w2, csv_load (csv_save w (cmd1 :: path :: extra1)).2 (cmd2 :: path :: extra2)
          = some (1, w2) ∧
        w2.table.headerList = t.headerList ∧ w2.table.rows = t.rows ∧
        (csv_save w2 (cmd1 :: path :: extra1)).2.readFile path
          = (csv_save w (cmd1 :: path :: extra1)).2.readFile path) := by
  refine ⟨fun t0 => load_save_text t t0 h, ?_⟩
  intro w cmd1 cmd2 path extra1 extra2 hw hpath
  obtain ⟨u, hu, _, _, hu3, hu4, hu5⟩ := load_save_text t t h
  have hsave : csv_save w (cmd1 :: path :: extra1) =
      (1, { w with
        readFile := fun p => if p = path then Except.ok (save_text w.table) else w.readFile p,
        out := w.out ++ "saved ".toList ++ fmtInt w.table.num_rows ++ " rows to ".toList
                ++ path ++ "\n".toList }) := by
    simp [csv_save, hpath]
  rw [hsave]
  simp only [csv_load, if_true, hw, hu]
  refine ⟨_, rfl, hu3, hu4, ?_⟩
  simp [csv_save, hpath, hu5]

/-- Instance of the amended C4: the table `people`. -/
theorem save_load_roundtrip_witness :
    ∃ u, load_file empty_table (save_text people) = some u ∧ u.num_cols = people.num_cols ∧
      u.num_rows = people.num_rows ∧ u.headerList = people.headerList ∧ u.rows = people.rows ∧
      save_text u = save_text people :=
  (save_load_roundtrip people
    ⟨by decide, by decide, by decide, by decide, by decide, by decide⟩).1 empty_table

/-- C4 fails as stated: `gapTable` has no comma in any header or cell, and its
first cell is empty.  `csv_save` writes the row as `,x`; `strtok` skips the
leading comma, so `csv_load` stores `x` in column 0 and leaves column 1 as it
was.  The rows read back differ from the rows saved, whether the load starts
from the table itself or from the initial table, and saving again writes another
text.  The table is one the program reaches from its initial state. -/
theorem roundtrip_gap_counterexample :
    (∀ x ∈ gapTable.headerList, ',' ∉ x) ∧
    (∀ row ∈ gapTable.rows, ∀ x ∈ row, ',' ∉ x) ∧
    gapTable.rows = [[[], "x".toList]] ∧
    save_text gapTable = "a,b\n,x\n".toList ∧
    (load_file gapTable (save_text gapTable)).map Table.rows
      = some [["x".toList, "x".toList]] ∧
    (load_file empty_table (save_text gapTable)).map Table.rows = some [["x".toList, []]] ∧
    (load_file empty_table (save_text gapTable)).map save_text = some "a,b\nx,\n".toList ∧
    (run (startWorld [("f1".toList, "a,b\nq,x\n".toList), ("f2".toList, "a\n5\n\n".toList),
          ("f3".toList, "a,b\n\n".toList)])
        [["load".toList, "f1".toList], ["load".toList, "f2".toList],
         ["sort".toList, "a".toList], ["load".toList, "f3".toList]]).map
      (fun w => (w.table.headerList, w.table.rows))
      = some (gapTable.headerList, gapTable.rows) := by
  refine ⟨by decide, by decide, by decide, by decide, by decide, by decide, by decide, ?_⟩
  decide!

/-! ## When `csv_load` is defined -/

theorem load_header_loop_defined (tokens : List CStr) (t : Table)
    (h : ∀ x ∈ tokens, (trim x).length < MAX_CELL_SIZE) :
    ∃ u, load_header_loop tokens t = some u ∧ u.data = t.data ∧ u.num_rows = t.num_rows ∧
      u.num_cols ≤ max t.num_cols MAX_COLS := by
  induction tokens generalizing t with
  | nil => exact ⟨t, rfl, rfl, rfl, Nat.le_max_left _ _⟩
  | cons x xs ih =>
    have hx := h x (List.mem_cons_self x xs)
    by_cases h1 : t.num_cols < MAX_COLS
    · simp only [load_header_loop, if_pos h1, if_pos hx]
      obtain ⟨u, hu, hu1, hu2, hu3⟩ :=
        ih { t with headers := setHeader t.headers t.num_cols (trim x),
                    num_cols := t.num_cols + 1 }
          (fun y hy => h y (List.mem_cons_of_mem x hy))
      refine ⟨u, hu, hu1, hu2, ?_⟩
      simp only [] at hu3
      omega
    · simp only [load_header_loop, if_neg h1]
      exact ⟨t, rfl, rfl, rfl, Nat.le_max_left _ _⟩

theorem load_cell_loop_defined (tokens : List CStr) (col : Nat) (t : Table)
    (h : ∀ x ∈ tokens, (trim x).length < MAX_CELL_SIZE) :
    ∃ u, load_cell_loop tokens col t = some u ∧ u.headers = t.headers ∧
      u.num_rows = t.num_rows ∧ u.num_cols = t.num_cols := by
  induction tokens generalizing col t with
  | nil => exact ⟨t, rfl, rfl, rfl, rfl⟩
  | cons x xs ih =>
    have hx := h x (List.mem_cons_self x xs)
    by_cases h1 : col < t.num_cols
    · simp only [load_cell_loop, if_pos h1, if_pos hx]
      exact ih (col + 1) { t with data := setCell t.data t.num_rows col (trim x) }
        (fun y hy => h y (List.mem_cons_of_mem x hy))
    · simp only [load_cell_loop, if_neg h1]
      exact ⟨t, rfl, rfl, rfl, rfl⟩

theorem load_row_loop_defined (bufs : List (List Char)) (t : Table)
    (h : ∀ buf ∈ bufs, ∀ x ∈ strtokAll (chompLine buf), (trim x).length < MAX_CELL_SIZE) :
    ∃ u, load_row_loop bufs t = some u ∧ u.headers = t.headers ∧ u.num_cols = t.num_cols ∧
      u.num_rows ≤ max t.num_rows MAX_ROWS := by
  induction bufs generalizing t with
  | nil => exact ⟨t, rfl, rfl, rfl, Nat.le_max_left _ _⟩
  | cons b bs ih =>
    by_cases h1 : t.num_rows < MAX_ROWS
    · obtain ⟨t1, ht1, ha, hb, hc⟩ :=
        load_cell_loop_defined (strtokAll (chompLine b)) 0 t (h b (List.mem_cons_self b bs))
      simp only [load_row_loop, if_pos h1, ht1]
      obtain ⟨u, hu, hu1, hu2, hu3⟩ :=
        ih { t1 with num_rows := t1.num_rows + 1 }
          (fun y hy => h y (List.mem_cons_of_mem b hy))
      refine ⟨u, hu, hu1.trans ha, hu2.trans hc, ?_⟩
      simp only [] at hu3
      omega
    · simp only [load_row_loop, if_neg h1]
      exact ⟨t, rfl, rfl, rfl, Nat.le_max_left _ _⟩

/-- The body of `csv_load` is defined on every file in which each field, once
trimmed, fits a cell buffer; the table it leaves has at most `MAX_ROWS` rows. -/
theorem load_file_defined (t : Table) (content : List Char)
    (h : ∀ buf ∈ fgetsAll content.length content,
      ∀ x ∈ strtokAll (chompLine buf), (trim x).length < MAX_CELL_SIZE) :
    ∃ u, load_file t content = some u ∧ u.num_rows ≤ MAX_ROWS := by
  unfold load_file
  cases hl : fgetsAll content.length content with
  | nil => exact ⟨{ t with num_rows := 0 }, rfl, Nat.zero_le _⟩
  | cons b bs =>
    rw [hl] at h
    obtain ⟨t1, ht1, _, _, _⟩ :=
      load_header_loop_defined (strtokAll (chompLine b)) { t with num_cols := 0 }
        (h b (List.mem_cons_self b bs))
    obtain ⟨u, hu, _, _, hu3⟩ :=
      load_row_loop_defined bs { t1 with num_rows := 0 }
        (fun y hy => h y (List.mem_cons_of_mem b hy))
    simp only [ht1]
    refine ⟨u, hu, ?_⟩
    simp only [] at hu3
    simpa using hu3

/-! ## The scratch table of `csv_filter` -/

/-- The table that `csv_filter` leaves does not depend on what the local
`temp_table` holds when the function starts. -/
theorem filter_temp_irrelevant (t : Table) (ci : Nat) (op value : CStr)
    (temp0 : Nat → Nat → CStr) (hci : ci < t.num_cols) :
    (filter_loop t ci op value temp0).new_row_count
      = (filter_loop t ci op value (fun _ _ => [])).new_row_count ∧
    copy_back (filter_loop t ci op value temp0).temp
        (filter_loop t ci op value temp0).new_row_count t.num_cols t.data
      = (filter_table t ci op value).data := by
  have h1 := filter_loop_rows t ci op value temp0 hci t.num_rows
  have h2 := filter_loop_rows t ci op value (fun _ _ => []) hci t.num_rows
  have hlen : (filter_loop t ci op value temp0).new_row_count
      = (filter_loop t ci op value (fun _ _ => [])).new_row_count := by
    have e1 := congrArg List.length h1
    have e2 := congrArg List.length h2
    rw [rowsOf_length] at e1 e2
    exact e1.trans e2.symm
  refine ⟨hlen, ?_⟩
  have h3 : rowsOf (filter_loop t ci op value temp0).temp
      (filter_loop t ci op value (fun _ _ => [])).new_row_count t.num_cols
      = rowsOf (filter_loop t ci op value (fun _ _ => [])).temp
          (filter_loop t ci op value (fun _ _ => [])).new_row_count t.num_cols := by
    rw [← hlen]
    exact h1.trans (by rw [hlen]; exact h2.symm)
  funext r c
  simp only [filter_table]
  rw [copy_back_apply, copy_back_apply, hlen]
  by_cases hrc : r < (filter_loop t ci op value (fun _ _ => [])).new_row_count ∧ c < t.num_cols
  · rw [if_pos hrc, if_pos hrc]
    exact rowsOf_cell_eq _ _ _ _ h3 r c hrc.1 hrc.2
  · rw [if_neg hrc, if_neg hrc]

/-! ## `fgets` reads the whole file -/

theorem fgets_append (k : Nat) (s : List Char) : (fgets k s).1 ++ (fgets k s).2 = s := by
  induction s generalizing k with
  | nil => cases k <;> rfl
  | cons c cs ih =>
    cases k with
    | zero => rfl
    | succ k =>
      by_cases hc : c = '\n'
      · simp [fgets, hc]
      · simp [fgets, hc, ih k]

theorem fgets_rest_length (k : Nat) (c : Char) (cs : List Char) :
    (fgets (k + 1) (c :: cs)).2.length ≤ cs.length := by
  induction cs generalizing k c with
  | nil =>
    by_cases hc : c = '\n'
    · simp [fgets, hc]
    · cases k <;> simp [fgets, hc]
  | cons d ds ih =>
    by_cases hc : c = '\n'
    · simp [fgets, hc]
    · cases k with
      | zero => simp [fgets, hc]
      | succ k =>
        have := ih k d
        simp only [fgets, if_neg hc, List.length_cons] at this ⊢
        omega

/-- With fuel equal to the length of the content the buffers returned by `fgets`
make up the whole content: the loop stops at the end of the file, not for lack
of fuel. -/
theorem fgetsAll_join (fuel : Nat) (s : List Char) (h : s.length ≤ fuel) :
    (fgetsAll fuel s).flatten = s := by
  induction fuel generalizing s with
  | zero =>
    have : s = [] := List.length_eq_zero.1 (by omega)
    subst this
    rfl
  | succ f ih =>
    match s with
    | [] => rfl
    | c :: cs =>
      have hne : ¬ (c :: cs = []) := by simp
      simp only [fgetsAll, if_neg hne, List.flatten_cons]
      have hlen := fgets_rest_length (MAX_LINE - 1 - 1) c cs
      have e : MAX_LINE - 1 - 1 + 1 = MAX_LINE - 1 := by decide
      rw [e] at hlen
      have hl : (c :: cs).length = cs.length + 1 := rfl
      rw [ih (fgets (MAX_LINE - 1) (c :: cs)).2 (by omega)]
      exact fgets_append _ _

/-! ## Errors leave the table alone -/

theorem csv_sort_table_cases (w : World) (args : List CStr) :
    (csv_sort w args).2.table = w.table ∨
    ∃ (cmd name : CStr) (extra : List CStr) (c : Nat),
      args = cmd :: name :: extra ∧ find_column w.table name = (c : Int) ∧
      (csv_sort w args).2.table = sort_table w.table c := by
  match args with
  | [] => left; rfl
  | [_] => left; rfl
  | cmd :: name :: extra =>
    rcases find_column_cases w.table name with h | ⟨c, hc, _, _⟩
    · left
      simp [csv_sort, h]
    · right
      exact ⟨cmd, name, extra, c, rfl, hc, (csv_sort_found w cmd name extra c hc).2⟩

/-- C13: a `csv_filter` call with fewer than three arguments or with a column
name that `find_column` does not resolve, and a `csv_sort` call with no argument
or with an unresolved column name, leave the whole table (grid, headers, row
count, column count) as it was, and return 1. -/
theorem error_leaves_table (w : World) (args : List CStr) :
    (args.length < 4 → (csv_filter w args).2.table = w.table ∧ (csv_filter w args).1 = 1) ∧
    (∀ cmd name op value extra, args = cmd :: name :: op :: value :: extra →
      find_column w.table name = -1 →
      (csv_filter w args).2.table = w.table ∧ (csv_filter w args).1 = 1) ∧
    (args.length < 2 → (csv_sort w args).2.table = w.table ∧ (csv_sort w args).1 = 1) ∧
    (∀ cmd name extra, args = cmd :: name :: extra →
      find_column w.table name = -1 →
      (csv_sort w args).2.table = w.table ∧ (csv_sort w args).1 = 1) := by
  refine ⟨?_, ?_, ?_, ?_⟩
  · intro h
    match args, h with
    | [], _ => exact ⟨rfl, rfl⟩
    | [_], _ => exact ⟨rfl, rfl⟩
    | [_, _], _ => exact ⟨rfl, rfl⟩
    | [_, _, _], _ => exact ⟨rfl, rfl⟩
    | _ :: _ :: _ :: _ :: _, h => simp at h; omega
  · intro cmd name op value extra hargs hcol
    subst hargs
    simp [csv_filter, hcol]
  · intro h
    match args, h with
    | [], _ => exact ⟨rfl, rfl⟩
    | [_], _ => exact ⟨rfl, rfl⟩
    | _ :: _ :: _, h => simp at h; omega
  · intro cmd name extra hargs hcol
    subst hargs
    simp [csv_sort, hcol]

/-- Instance of C13: `filter` alone and `sort` of a missing column on `people`. -/
theorem error_leaves_table_witness :
    (csv_filter (worldOf people) ["filter".toList]).2.table = (worldOf people).table ∧
    (csv_sort (worldOf people) ["sort".toList, "zip".toList]).2.table = (worldOf people).table :=
  ⟨((error_leaves_table (worldOf people) ["filter".toList]).1 (by decide)).1,
   ((error_leaves_table (worldOf people) ["sort".toList, "zip".toList]).2.2.2
      "sort".toList "zip".toList [] rfl (by decide)).1⟩

/-! ## The text of `csv_save` and of `csv_show` -/

theorem joinFields_eq_intercalate (fs : List CStr) :
    joinFields fs = List.intercalate [','] fs := by
  induction fs with
  | nil => rfl
  | cons f gs ih =>
    cases gs with
    | nil => simp [joinFields, List.intercalate]
    | cons g rest =>
      have e : joinFields (f :: g :: rest) = f ++ ',' :: joinFields (g :: rest) := rfl
      rw [e, ih]
      simp [List.intercalate, List.intersperse]

theorem textOf_eq_flatten (ls : List CStr) :
    textOf ls = (ls.map (fun l => l ++ ['\n'])).flatten := by
  induction ls with
  | nil => rfl
  | cons l rest ih => simp [textOf, ih]

theorem csv_save_table (w : World) (args : List CStr) :
    (csv_save w args).2.table = w.table ∧ (csv_save w args).1 = 1 := by
  unfold csv_save
  split
  · split <;> exact ⟨rfl, rfl⟩
  · exact ⟨rfl, rfl⟩

/-- C16: the text that `csv_save` writes is the headers joined by `,` and a
newline, then for each row in row order its cells joined by `,` and a newline:
`num_rows + 1` lines, written verbatim, no comma after the last cell.  The text
becomes the content of the file when it can be opened; `csv_save` leaves the
table unchanged and returns 1. -/
theorem csv_save_spec (w : World) :
    save_text w.table
      = ((List.intercalate [','] w.table.headerList ::
          w.table.rows.map (List.intercalate [','])).map (fun l => l ++ ['\n'])).flatten ∧
    (List.intercalate [','] w.table.headerList ::
      w.table.rows.map (List.intercalate [','])).length = w.table.num_rows + 1 ∧
    (∀ args, (csv_save w args).2.table = w.table ∧ (csv_save w args).1 = 1) ∧
    (∀ cmd path extra, w.writeError path = none →
      (csv_save w (cmd :: path :: extra)).2.readFile path = Except.ok (save_text w.table)) ∧
    (∀ cmd path extra msg, w.writeError path = some msg →
      (csv_save w (cmd :: path :: extra)).2.readFile = w.readFile) := by
  refine ⟨?_, ?_, csv_save_table w, ?_, ?_⟩
  · rw [save_text_eq, textOf_eq_flatten, joinFields_eq_intercalate]
    have : w.table.rows.map joinFields = w.table.rows.map (List.intercalate [',']) :=
      List.map_congr_left (fun r _ => joinFields_eq_intercalate r)
    rw [this]
  · simp [Table.rows, rowsOf_length]
  · intro cmd path extra h
    simp [csv_save, h]
  · intro cmd path extra msg h
    simp [csv_save, h]

/-- Instance of C16: saving `people` to a writable path. -/
theorem csv_save_spec_witness :
    (csv_save (worldOf people) ["save".toList, "b.csv".toList]).2.readFile "b.csv".toList
      = Except.ok (save_text people) :=
  (csv_save_spec (worldOf people)).2.2.2.1 "save".toList "b.csv".toList [] rfl

theorem forLoop_append (n : Nat) (f : Nat → List Char) (o : List Char) :
    forLoop n (fun i o => o ++ f i) o = o ++ ((List.range n).map f).flatten := by
  induction n with
  | zero => simp [forLoop_zero]
  | succ k ih => rw [forLoop_succ, ih]; simp [List.range_succ]

theorem rowsOf_take (d : Nat → Nat → CStr) (n m k : Nat) :
    (rowsOf d n m).take k = rowsOf d (min k n) m := by
  unfold rowsOf
  rw [← List.map_take, List.take_range]

theorem show_text_rows (t : Table) (k : Nat) (o : List Char) :
    forLoop k (fun row o =>
        forLoop t.num_cols (fun col o => o ++ fmtPad15 (t.data row col)) o ++ "\n".toList) o
      = o ++ ((rowsOf t.data k t.num_cols).map showLine).flatten := by
  induction k with
  | zero => simp [forLoop_zero, rowsOf]
  | succ k ih =>
    rw [forLoop_succ, ih, forLoop_append, rowsOf_succ]
    simp [showLine, rowOf, Function.comp_def]

theorem show_text_eq (t : Table) (h : t.num_rows ≠ 0) :
    show_text t = showLine t.headerList ++ showLine (List.replicate t.num_cols dashes)
      ++ ((t.rows.take 20).map showLine).flatten
      ++ (if t.num_rows > 20 then
            "...(".toList ++ fmtInt (t.num_rows - 20) ++ " more rows)\n".toList
          else []) := by
  have hmax : (if t.num_rows > 20 then 20 else t.num_rows) = min 20 t.num_rows := by
    split <;> omega
  have hdash : ((List.range t.num_cols).map (fun _ => fmtPad15 dashes)).flatten
      = ((List.replicate t.num_cols dashes).map fmtPad15).flatten := by
    congr 1
    induction t.num_cols with
    | zero => rfl
    | succ k ih => simp [List.range_succ, List.replicate_succ', ih]
  unfold show_text
  rw [if_neg h]
  simp only [show_text_rows]
  simp only [forLoop_append, hmax, Table.rows, rowsOf_take, showLine, Table.headerList]
  have e : "---------------".toList = dashes := rfl
  rw [e, hdash]
  split <;> simp [List.append_assoc, Function.comp_def]

/-- C14: with no row `csv_show` prints only the empty-state message; otherwise it
prints the header line, a line of dashes, then exactly the first `min(n, 20)`
rows in table order, one line each, and after them the line
`...(n-20 more rows)` exactly when `n > 20`; with 21 rows that is 20 data lines
and `...(1 more rows)`.  The table is not modified and the command returns 1. -/
theorem csv_show_spec (w : World) (args : List CStr) :
    (csv_show w args).2.table = w.table ∧ (csv_show w args).1 = 1 ∧
    (csv_show w args).2.out = w.out ++ show_text w.table ∧
    (w.table.num_rows = 0 →
      show_text w.table = "No data loaded. Use 'load <file.csv>' first.\n".toList) ∧
    (w.table.num_rows ≠ 0 →
      show_text w.table
        = showLine w.table.headerList ++ showLine (List.replicate w.table.num_cols dashes)
          ++ ((w.table.rows.take 20).map showLine).flatten
          ++ (if w.table.num_rows > 20 then
                "...(".toList ++ fmtInt (w.table.num_rows - 20) ++ " more rows)\n".toList
              else [])) ∧
    (w.table.rows.take 20).length = min w.table.num_rows 20 ∧
    (w.table.num_rows = 21 →
      show_text w.table
        = showLine w.table.headerList ++ showLine (List.replicate w.table.num_cols dashes)
          ++ ((w.table.rows.take 20).map showLine).flatten
          ++ "...(1 more rows)\n".toList ∧
      (w.table.rows.take 20).length = 20) := by
  refine ⟨rfl, rfl, rfl, ?_, show_text_eq w.table, ?_, ?_⟩
  · intro h
    simp [show_text, h]
  · simp [Table.rows, rowsOf_length, Nat.min_comm]
  · intro h
    have h0 : w.table.num_rows ≠ 0 := by omega
    have hmore : (if 21 > 20 then
          "...(".toList ++ fmtInt (21 - 20) ++ " more rows)\n".toList else [])
        = "...(1 more rows)\n".toList := by decide
    rw [show_text_eq w.table h0, h, hmore]
    refine ⟨rfl, ?_⟩
    simp [Table.rows, rowsOf_length, h]

/-- Instance of C14: `show` on `people`, which has three rows. -/
theorem csv_show_spec_witness :
    show_text people
      = showLine people.headerList ++ showLine (List.replicate people.num_cols dashes)
        ++ ((people.rows.take 20).map showLine).flatten
        ++ (if people.num_rows > 20 then
              "...(".toList ++ fmtInt (people.num_rows - 20) ++ " more rows)\n".toList
            else []) :=
  (csv_show_spec (worldOf people) ["show".toList]).2.2.2.2.1 (by decide)

/-! ## The end-to-end scenario -/

/-- C15: from the initial table and the file `a.csv` with the content
`name,age / Alice,30 / Bob,22 / Cara,41`, `load a.csv` gives 3 rows and 2 columns
with the headers `name`, `age`; then `filter age > 25` leaves the rows
`Alice,30` and `Cara,41` in that order; then `sort age` leaves them in that
order; then `save b.csv` writes exactly `name,age / Alice,30 / Cara,41`; every
step returns 1 and prints its report. -/
theorem end_to_end_scenario :
    (csv_execute scenario ["load".toList, "a.csv".toList]).map observe
      = some ⟨1, 3, 2, ["name".toList, "age".toList],
          [["Alice".toList, "30".toList], ["Bob".toList, "22".toList],
           ["Cara".toList, "41".toList]],
          "Loaded 3 rows, 2 columns\n".toList⟩ ∧
    ((run scenario [["load".toList, "a.csv".toList]]).bind (fun w =>
        csv_execute w ["filter".toList, "age".toList, ">".toList, "25".toList])).map observe
      = some ⟨1, 2, 2, ["name".toList, "age".toList],
          [["Alice".toList, "30".toList], ["Cara".toList, "41".toList]],
          "Loaded 3 rows, 2 columns\nFiltered to 2 rows\n".toList⟩ ∧
    ((run scenario [["load".toList, "a.csv".toList],
          ["filter".toList, "age".toList, ">".toList, "25".toList]]).bind (fun w =>
        csv_execute w ["sort".toList, "age".toList])).map observe
      = some ⟨1, 2, 2, ["name".toList, "age".toList],
          [["Alice".toList, "30".toList], ["Cara".toList, "41".toList]],
          "Loaded 3 rows, 2 columns\nFiltered to 2 rows\nSorted by age\n".toList⟩ ∧
    ((run scenario [["load".toList, "a.csv".toList],
          ["filter".toList, "age".toList, ">".toList, "25".toList],
          ["sort".toList, "age".toList]]).bind (fun w =>
        csv_execute w ["save".toList, "b.csv".toList])).map observe
      = some ⟨1, 2, 2, ["name".toList, "age".toList],
          [["Alice".toList, "30".toList], ["Cara".toList, "41".toList]],
          ("Loaded 3 rows, 2 columns\nFiltered to 2 rows\nSorted by age\n"
            ++ "saved 2 rows to b.csv\n").toList⟩ ∧
    (run scenario [["load".toList, "a.csv".toList],
          ["filter".toList, "age".toList, ">".toList, "25".toList],
          ["sort".toList, "age".toList],
          ["save".toList, "b.csv".toList]]).bind (fun w => fileContent w "b.csv".toList)
      = some "name,age\nAlice,30\nCara,41\n".toList := by
  refine ⟨by decide, by decide!, by decide!, by decide!, by decide!⟩

/-! ## What `csv_load` stores -/

/-- The cell loop, when it is defined, stores the `k`-th token, trimmed, in
column `col + k` of the row `num_rows` as long as that column is below
`num_cols`, and writes nothing else. -/
theorem load_cell_loop_spec (tokens : List CStr) (col : Nat) (t u : Table)
    (h : load_cell_loop tokens col t = some u) :
    u.num_cols = t.num_cols ∧ u.num_rows = t.num_rows ∧ u.headers = t.headers ∧
    ∀ r c, u.data r c =
      if r = t.num_rows ∧ col ≤ c ∧ c < t.num_cols ∧ c - col < tokens.length then
        trim (tokens.getD (c - col) [])
      else t.data r c := by
  induction tokens generalizing col t with
  | nil =>
    simp only [load_cell_loop, Option.some.injEq] at h
    subst h
    refine ⟨rfl, rfl, rfl, ?_⟩
    intro r c
    simp
  | cons x xs ih =>
    by_cases h1 : col < t.num_cols
    · by_cases h2 : (trim x).length < MAX_CELL_SIZE
      · simp only [load_cell_loop, if_pos h1, if_pos h2] at h
        obtain ⟨ha, hb, hc, hd⟩ := ih (col + 1) _ h
        refine ⟨ha, hb, hc, ?_⟩
        intro r c
        rw [hd r c]
        simp only [setCell]
        by_cases hr : r = t.num_rows
        · by_cases hcc : c = col
          · subst hcc
            have e1 : ¬ (c + 1 ≤ c) := by omega
            simp [hr, e1, h1]
          · by_cases hlt : col + 1 ≤ c
            · have e2 : c - col = (c - (col + 1)) + 1 := by omega
              have e3 : col ≤ c := by omega
              simp only [hr, hlt, e3, true_and, List.length_cons, e2, List.getD_cons_succ,
                Nat.add_lt_add_iff_right, hcc, and_false, if_false]
            · have e3 : ¬ (col ≤ c) := by omega
              simp [hr, hlt, e3, hcc]
        · simp [hr]
      · simp [load_cell_loop, h1, h2] at h
    · simp only [load_cell_loop, if_neg h1, Option.some.injEq] at h
      subst h
      refine ⟨rfl, rfl, rfl, ?_⟩
      intro r c
      have : ¬ (r = t.num_rows ∧ col ≤ c ∧ c < t.num_cols ∧ c - col < (x :: xs).length) := by
        intro hh; omega
      rw [if_neg this]

/-- The header loop, when it is defined, stores the `k`-th token, trimmed, in
`headers[num_cols + k]` as long as that index is below `MAX_COLS`, counts the
headers stored, and writes nothing else. -/
theorem load_header_loop_spec (tokens : List CStr) (t u : Table)
    (h : load_header_loop tokens t = some u) (hcols : t.num_cols ≤ MAX_COLS) :
    u.data = t.data ∧ u.num_rows = t.num_rows ∧
    u.num_cols = min (t.num_cols + tokens.length) MAX_COLS ∧
    ∀ c, u.headers c =
      if t.num_cols ≤ c ∧ c < MAX_COLS ∧ c - t.num_cols < tokens.length then
        trim (tokens.getD (c - t.num_cols) [])
      else t.headers c := by
  induction tokens generalizing t with
  | nil =>
    simp only [load_header_loop, Option.some.injEq] at h
    subst h
    refine ⟨rfl, rfl, by simp; omega, ?_⟩
    intro c
    simp
  | cons x xs ih =>
    by_cases h1 : t.num_cols < MAX_COLS
    · by_cases h2 : (trim x).length < MAX_CELL_SIZE
      · simp only [load_header_loop, if_pos h1, if_pos h2] at h
        obtain ⟨ha, hb, hc, hd⟩ := ih _ h (by simp only []; omega)
        refine ⟨ha, hb, ?_, ?_⟩
        · rw [hc]
          simp only [List.length_cons]
          omega
        · intro c
          rw [hd c]
          simp only [setHeader]
          by_cases hcc : c = t.num_cols
          · have e1 : ¬ (t.num_cols + 1 ≤ t.num_cols) := by omega
            simp [hcc, e1, h1]
          · by_cases hlt : t.num_cols + 1 ≤ c
            · have e2 : c - t.num_cols = (c - (t.num_cols + 1)) + 1 := by omega
              have e3 : t.num_cols ≤ c := by omega
              simp only [hlt, e3, true_and, List.length_cons, e2, List.getD_cons_succ,
                Nat.add_lt_add_iff_right, hcc, if_false]
            · have e3 : ¬ (t.num_cols ≤ c) := by omega
              simp [hlt, e3, hcc]
      · simp [load_header_loop, h1, h2] at h
    · simp only [load_header_loop, if_neg h1, Option.some.injEq] at h
      subst h
      refine ⟨rfl, rfl, by simp only [List.length_cons]; omega, ?_⟩
      intro c
      have : ¬ (t.num_cols ≤ c ∧ c < MAX_COLS ∧ c - t.num_cols < (x :: xs).length) := by
        intro hh; omega
      rw [if_neg this]

/-- The row loop, when it is defined, stores one row per buffer while the row
count is below `MAX_ROWS`: in the row of a buffer the `c`-th token, trimmed,
lands in column `c` for `c` below `num_cols`; nothing else is written. -/
theorem load_row_loop_spec (bufs : List (List Char)) (t u : Table)
    (h : load_row_loop bufs t = some u) (hrows : t.num_rows ≤ MAX_ROWS) :
    u.num_cols = t.num_cols ∧ u.headers = t.headers ∧
    u.num_rows = min (t.num_rows + bufs.length) MAX_ROWS ∧
    ∀ r c, u.data r c =
      if t.num_rows ≤ r ∧ r < MAX_ROWS ∧ r - t.num_rows < bufs.length ∧ c < t.num_cols ∧
          c < (lineTokens bufs (r - t.num_rows)).length then
        trim ((lineTokens bufs (r - t.num_rows)).getD c [])
      else t.data r c := by
  induction bufs generalizing t with
  | nil =>
    simp only [load_row_loop, Option.some.injEq] at h
    subst h
    refine ⟨rfl, rfl, by simp; omega, ?_⟩
    intro r c
    simp
  | cons b rest ih =>
    by_cases h1 : t.num_rows < MAX_ROWS
    · simp only [load_row_loop, if_pos h1] at h
      cases hcell : load_cell_loop (strtokAll (chompLine b)) 0 t with
      | none => rw [hcell] at h; simp at h
      | some t1 =>
        rw [hcell] at h
        simp only [] at h
        obtain ⟨ca, cb, cc, cd⟩ := load_cell_loop_spec _ 0 t t1 hcell
        obtain ⟨ha, hb, hc, hd⟩ := ih _ h (by simp only []; omega)
        refine ⟨ha.trans ca, hb.trans cc, ?_, ?_⟩
        · rw [hc]
          simp only [List.length_cons]
          omega
        · intro r c
          rw [hd r c]
          simp only [cd r c, cb, ca]
          by_cases hr : r = t.num_rows
          · have e1 : ¬ (t.num_rows + 1 ≤ r) := by omega
            have e2 : lineTokens (b :: rest) 0 = strtokAll (chompLine b) := rfl
            simp [hr, e2, h1]
          · by_cases hlt : t.num_rows + 1 ≤ r
            · have e2 : r - t.num_rows = (r - (t.num_rows + 1)) + 1 := by omega
              have e3 : t.num_rows ≤ r := by omega
              have e4 : lineTokens (b :: rest) (r - (t.num_rows + 1) + 1)
                  = lineTokens rest (r - (t.num_rows + 1)) := rfl
              simp only [hlt, e3, true_and, List.length_cons, e2, e4,
                Nat.add_lt_add_iff_right, hr, false_and, if_false]
            · have e3 : ¬ (t.num_rows ≤ r) := by omega
              simp [hlt, e3, hr]
    · simp only [load_row_loop, if_neg h1, Option.some.injEq] at h
      subst h
      refine ⟨rfl, rfl, by simp only [List.length_cons]; omega, ?_⟩
      intro r c
      have : ¬ (t.num_rows ≤ r ∧ r < MAX_ROWS ∧ r - t.num_rows < (b :: rest).length ∧
          c < t.num_cols ∧ c < (lineTokens (b :: rest) (r - t.num_rows)).length) := by
        intro hh; omega
      rw [if_neg this]

/-- What `csv_load` leaves for a file with at least one line, when it is
defined: the column count is the number of tokens of the first line capped at
`MAX_COLS`, the row count is the number of further `fgets` buffers capped at
`MAX_ROWS`, header `c` is the `c`-th token of the first line, trimmed, and cell
`c` of row `r` is the `c`-th token of buffer `r`, trimmed, when the buffer has
that many tokens; every other buffer of the table keeps its content. -/
theorem load_file_spec (t u : Table) (content : List Char) (hd : List Char)
    (bufs : List (List Char)) (hl : fgetsAll content.length content = hd :: bufs)
    (h : load_file t content = some u) :
    u.num_cols = min (strtokAll (chompLine hd)).length MAX_COLS ∧
    u.num_rows = min bufs.length MAX_ROWS ∧
    (∀ c, u.headers c =
      if c < min (strtokAll (chompLine hd)).length MAX_COLS then
        trim ((strtokAll (chompLine hd)).getD c [])
      else t.headers c) ∧
    (∀ r c, u.data r c =
      if r < min bufs.length MAX_ROWS ∧ c < u.num_cols ∧ c < (lineTokens bufs r).length then
        trim ((lineTokens bufs r).getD c [])
      else t.data r c) := by
  unfold load_file at h
  rw [hl] at h
  simp only [] at h
  cases hh : load_header_loop (strtokAll (chompLine hd)) { t with num_cols := 0 } with
  | none => rw [hh] at h; simp at h
  | some t1 =>
    rw [hh] at h
    simp only [] at h
    obtain ⟨ha, _, hc, hdd⟩ := load_header_loop_spec _ _ t1 hh (Nat.zero_le _)
    obtain ⟨ra, rb, rc, rd⟩ := load_row_loop_spec bufs _ u h (Nat.zero_le _)
    simp only [Nat.zero_add] at hc rc
    simp only [Nat.zero_le, true_and, Nat.sub_zero] at hdd rd
    refine ⟨ra.trans hc, rc, ?_, ?_⟩
    · intro c
      rw [rb]
      simp only []
      rw [hdd c]
      by_cases hcc : c < min (strtokAll (chompLine hd)).length MAX_COLS
      · have e1 : c < MAX_COLS ∧ c < (strtokAll (chompLine hd)).length := by omega
        rw [if_pos e1, if_pos hcc]
      · have e1 : ¬ (c < MAX_COLS ∧ c < (strtokAll (chompLine hd)).length) := by omega
        rw [if_neg e1, if_neg hcc]
    · intro r c
      rw [rd r c, ra]
      simp only [ha]
      by_cases hrc : r < min bufs.length MAX_ROWS ∧ c < t1.num_cols ∧
          c < (lineTokens bufs r).length
      · have e1 : r < MAX_ROWS ∧ r < bufs.length ∧ c < t1.num_cols ∧
            c < (lineTokens bufs r).length := ⟨by omega, by omega, hrc.2.1, hrc.2.2⟩
        rw [if_pos e1, if_pos hrc]
      · have e1 : ¬ (r < MAX_ROWS ∧ r < bufs.length ∧ c < t1.num_cols ∧
            c < (lineTokens bufs r).length) := by
          intro hh2
          exact hrc ⟨by omega, hh2.2.2.1, hh2.2.2.2⟩
        rw [if_neg e1, if_neg hrc]

/-! ## `strtok` -/

theorem splitFields_eq (s : CStr) :
    splitFields s = s.takeWhile (fun x => x != ',') ::
      (match s.dropWhile (fun x => x != ',') with
       | [] => []
       | _ :: r => splitFields r) := by
  induction s with
  | nil => rfl
  | cons c cs ih =>
    by_cases hc : c = ','
    · subst hc
      simp [splitFields]
    · have e : splitFields (c :: cs) = match splitFields cs with
          | f :: fs => (c :: f) :: fs
          | [] => [[c]] := by
        simp [splitFields, hc]
      rw [e, ih]
      simp [hc]

theorem strtokAll_comma (s : CStr) : strtokAll (',' :: s) = strtokAll s := by
  simp [strtokAll, splitFields]

theorem strtokAll_dropWhile (s : CStr) :
    strtokAll (s.dropWhile (fun c => c == ',')) = strtokAll s := by
  induction s with
  | nil => rfl
  | cons c cs ih =>
    by_cases hc : c = ','
    · subst hc
      rw [strtokAll_comma]
      simpa using ih
    · simp [hc]

theorem strtokAll_token (c : Char) (cs : CStr) (hc : c ≠ ',') :
    strtokAll (c :: cs) = (c :: cs).takeWhile (fun x => x != ',') ::
      strtokAll (((c :: cs).dropWhile (fun x => x != ',')).drop 1) := by
  have h1 : (c :: cs).takeWhile (fun x => x != ',') = c :: cs.takeWhile (fun x => x != ',') := by
    simp [hc]
  conv => lhs; unfold strtokAll; rw [splitFields_eq]
  rw [h1]
  simp only [List.filter_cons, List.isEmpty_cons, Bool.not_false, if_true]
  congr 1
  cases hd : (c :: cs).dropWhile (fun x => x != ',') with
  | nil => simp [strtokAll, splitFields]
  | cons x r => simp [strtokAll]

theorem dropWhile_length_le (p : Char → Bool) (s : List Char) :
    (s.dropWhile p).length ≤ s.length := by
  induction s with
  | nil => simp
  | cons c cs ih =>
    by_cases hc : p c = true
    · simp only [List.dropWhile_cons, hc, if_true, List.length_cons]; omega
    · simp [List.dropWhile_cons, hc]

/-- The list `strtokAll` is what the repeated `strtok` calls return. -/
theorem strtokLoop_eq (fuel : Nat) (s : CStr) (h : s.length < fuel) :
    strtokLoop fuel s = strtokAll s := by
  induction fuel generalizing s with
  | zero => omega
  | succ f ih =>
    have hdrop := strtokAll_dropWhile s
    have hlen := dropWhile_length_le (fun c => c == ',') s
    cases ht : s.dropWhile (fun c => c == ',') with
    | nil =>
      rw [ht] at hdrop
      simp only [strtokLoop, strtok, ht]
      rw [← hdrop]
      rfl
    | cons c cs =>
      rw [ht] at hdrop hlen
      have hc : c ≠ ',' := by
        have := List.head_dropWhile_not (fun c => c == ',') s (by rw [ht]; simp)
        simp only [ht, List.head_cons] at this
        simpa using this
      simp only [strtokLoop, strtok, ht]
      rw [← hdrop, strtokAll_token c cs hc]
      congr 1
      apply ih
      have h2 := dropWhile_length_le (fun x => x != ',') (c :: cs)
      simp only [List.length_drop, List.length_cons] at h2 hlen ⊢
      omega

/-! ## Short lines, long lines and empty fields -/

/-- C18: `csv_load` takes its cells from `strtok`, whose tokens are the non-empty
comma-separated fields: an empty field gives no cell.  The `k`-th token of a line
is stored (after `trim`) in column `k` while `k` is below the column count, and
no other cell is written; the column count is the number of tokens of the header
line capped at 20.  With three headers the line `a,,c` puts `a` in column 0 and
`c` in column 1 and leaves column 2 as it was. -/
theorem load_tokenises (line : CStr) :
    strtokLoop (line.length + 1) line = strtokAll line ∧
    strtokAll line = (splitFields line).filter (fun f => !f.isEmpty) ∧
    (∀ (t u : Table), load_cell_loop (strtokAll line) 0 t = some u →
      ∀ r c, u.data r c =
        if r = t.num_rows ∧ c < t.num_cols ∧ c < (strtokAll line).length then
          trim ((strtokAll line).getD c [])
        else t.data r c) ∧
    (∀ (t u : Table), load_header_loop (strtokAll line) { t with num_cols := 0 } = some u →
      u.num_cols = min (strtokAll line).length MAX_COLS) ∧
    splitFields "a,,c".toList = ["a".toList, [], "c".toList] ∧
    strtokAll "a,,c".toList = ["a".toList, "c".toList] ∧
    loaded threeCols "x,y,z\na,,c\n".toList
      = some ⟨1, 3, ["x".toList, "y".toList, "z".toList],
          [["a".toList, "c".toList, "r".toList]]⟩ := by
  refine ⟨strtokLoop_eq _ line (Nat.lt_succ_self _), rfl, ?_, ?_, by decide, by decide,
    by decide⟩
  · intro t u h r c
    have hs := (load_cell_loop_spec _ 0 t u h).2.2.2 r c
    simp only [Nat.zero_le, true_and, Nat.sub_zero] at hs
    exact hs
  · intro t u h
    have hs := (load_header_loop_spec _ _ u h (Nat.zero_le _)).2.2.1
    simpa using hs

/-- Instance of C18: the header line `a,,c` gives two columns. -/
theorem load_tokenises_witness :
    (⟨empty_table.data,
      setHeader (setHeader empty_table.headers 0 "a".toList) 1 "c".toList, 0, 2⟩ : Table).num_cols
      = min (strtokAll "a,,c".toList).length MAX_COLS :=
  (load_tokenises "a,,c".toList).2.2.2.1 empty_table _ rfl

/-- C17 as amended: when `csv_load` is defined and a data line has more tokens
(non-empty comma-separated fields) than there are columns, the cells of its row
are exactly the first `num_cols` tokens of the line, each as `trim` leaves it;
the tokens in excess are dropped: the column count and the row count depend on
the header line and on the number of lines only, and every other row is given by
its own line. -/
theorem load_long_line (t u : Table) (content : List Char) (hd : List Char)
    (bufs : List (List Char)) (hl : fgetsAll content.length content = hd :: bufs)
    (h : load_file t content = some u) (r : Nat) (hr : r < u.num_rows)
    (hlong : u.num_cols < (lineTokens bufs r).length) :
    rowOf u.data u.num_cols r = ((lineTokens bufs r).take u.num_cols).map trim ∧
    u.num_cols = min (strtokAll (chompLine hd)).length MAX_COLS ∧
    u.num_rows = min bufs.length MAX_ROWS ∧
    (∀ r2 c, r2 ≠ r → u.data r2 c =
      if r2 < min bufs.length MAX_ROWS ∧ c < u.num_cols ∧ c < (lineTokens bufs r2).length then
        trim ((lineTokens bufs r2).getD c [])
      else t.data r2 c) := by
  obtain ⟨h1, h2, _, h4⟩ := load_file_spec t u content hd bufs hl h
  refine ⟨?_, h1, h2, fun r2 c _ => h4 r2 c⟩
  apply List.ext_getElem
  · simp only [rowOf_length, List.length_map, List.length_take]
    omega
  · intro i hi1 hi2
    have hi : i < u.num_cols := by simpa [rowOf_length] using hi1
    have hcell := h4 r i
    rw [if_pos ⟨by omega, hi, by omega⟩] at hcell
    simp only [rowOf, List.getElem_map, List.getElem_range, List.getElem_take]
    rw [hcell, List.getD_eq_getElem _ _ (by omega)]

/-- Instance of the amended C17: the line `x,y,z` under the headers `a`, `b`. -/
theorem load_long_line_witness :
    load_file empty_table "a,b\nx,y,z\n".toList = some longLineTable ∧
    rowOf longLineTable.data longLineTable.num_cols 0
      = ((lineTokens ["x,y,z\n".toList] 0).take longLineTable.num_cols).map trim :=
  ⟨rfl, (load_long_line empty_table longLineTable "a,b\nx,y,z\n".toList "a,b\n".toList
    ["x,y,z\n".toList] (by decide) rfl 0 (by decide) (by decide)).1⟩

/-- C17 fails as stated: under the headers `a`, `b` the line `x,,y,z` has the
four comma-separated fields `x`, the empty field, `y` and `z`, of which the first
two are `x` and the empty field; `csv_load` stores `x` and `y`. -/
theorem load_long_line_counterexample :
    splitFields "x,,y,z".toList = ["x".toList, [], "y".toList, "z".toList] ∧
    ((splitFields "x,,y,z".toList).take 2).map trim = ["x".toList, []] ∧
    loaded empty_table "a,b\nx,,y,z\n".toList
      = some ⟨1, 2, ["a".toList, "b".toList], [["x".toList, "y".toList]]⟩ := by
  refine ⟨by decide, by decide, by decide⟩

/-- The cells of a row beyond the tokens of its line keep what the grid held
before the load. -/
theorem load_short_line (t u : Table) (content : List Char) (hd : List Char)
    (bufs : List (List Char)) (hl : fgetsAll content.length content = hd :: bufs)
    (h : load_file t content = some u) (r c : Nat)
    (hshort : (lineTokens bufs r).length ≤ c) : u.data r c = t.data r c := by
  have hcell := (load_file_spec t u content hd bufs hl h).2.2.2 r c
  rw [hcell, if_neg (by intro hh; omega)]

/-- C11 on the code: the line `3` under the headers `a`, `b` gives the row `3`,
empty when the file is the first one loaded; loaded after the file with the row
`1,2` it gives the row `3,2`: the missing cell keeps the cell of the earlier
file. -/
theorem load_short_line_stale :
    loaded empty_table "a,b\n3\n".toList
      = some ⟨1, 2, ["a".toList, "b".toList], [["3".toList, []]]⟩ ∧
    (run (startWorld [("f1".toList, "a,b\n1,2\n".toList), ("f2".toList, "a,b\n3\n".toList)])
        [["load".toList, "f1".toList], ["load".toList, "f2".toList]]).map
      (fun w => w.table.view)
      = some ⟨1, 2, ["a".toList, "b".toList], [["3".toList, "2".toList]]⟩ := by
  refine ⟨by decide, by decide⟩

/-! ## What `trim` does -/

theorem trimScan_take (str : CStr) (c : Char) (cs : CStr) (hs : str = c :: cs)
    (hc : isspace c = false) (e : Nat) (he : e < str.length) :
    str.take (trimScan str e + 1) = ((str.take (e + 1)).reverse.dropWhile isspace).reverse := by
  induction e with
  | zero =>
    subst hs
    simp [trimScan, hc]
  | succ e ih =>
    have he2 : e < str.length := by omega
    have hget : str.getD (e + 1) 'x' = str[e + 1] := List.getD_eq_getElem _ _ he
    have htake : str.take (e + 1 + 1) = str.take (e + 1) ++ [str[e + 1]] := by
      rw [List.take_succ, List.getElem?_eq_getElem he]
      rfl
    rw [htake, List.reverse_append]
    simp only [List.reverse_cons, List.reverse_nil, List.nil_append, List.singleton_append,
      List.dropWhile_cons]
    by_cases hsp : isspace str[e + 1] = true
    · simp only [trimScan, hget, hsp, if_true]
      exact ih he2
    · simp only [trimScan, hget, hsp, Bool.false_eq_true, if_false, List.reverse_cons,
        List.reverse_reverse]
      exact htake

theorem dropWhile_append_left (p : Char → Bool) (l r : List Char)
    (h : l.dropWhile p ≠ []) : (l ++ r).dropWhile p = l.dropWhile p ++ r := by
  induction l with
  | nil => exact absurd rfl h
  | cons c cs ih =>
    by_cases hc : p c = true
    · simp only [List.cons_append, List.dropWhile_cons, hc, if_true] at h ⊢
      exact ih h
    · simp [List.dropWhile_cons, hc]

/-- The buffer after `trim`: unchanged when it holds white space only, and
otherwise the buffer without the white space at its end. -/
theorem trim_eq (s : CStr) :
    trim s = if s.dropWhile isspace = [] then s
      else (s.reverse.dropWhile isspace).reverse := by
  unfold trim
  by_cases h0 : s.dropWhile isspace = []
  · simp only [h0, if_true]
  · simp only [if_neg h0]
    have hs : s.takeWhile isspace ++ s.dropWhile isspace = s :=
      List.takeWhile_append_dropWhile isspace s
    cases hd : s.dropWhile isspace with
    | nil => exact absurd hd h0
    | cons c cs =>
      have hc : isspace c = false := by
        have := List.head_dropWhile_not isspace s (by rw [hd]; simp)
        simp only [hd, List.head_cons] at this
        simpa using this
      have hlen : (c :: cs).length - 1 < (c :: cs).length := by simp
      have hfull : (c :: cs).take ((c :: cs).length - 1 + 1) = c :: cs := by
        have : (c :: cs).length - 1 + 1 = (c :: cs).length := by simp
        rw [this, List.take_length]
      rw [trimScan_take (c :: cs) c cs rfl hc _ hlen, hfull]
      have hne : ((c :: cs).reverse.dropWhile isspace) ≠ [] := by
        intro hnil
        have hall := List.dropWhile_eq_nil_iff.1 hnil
        have := hall c (by simp)
        rw [hc] at this
        exact Bool.noConfusion this
      conv => rhs; rw [← hs, hd, List.reverse_append]
      rw [dropWhile_append_left _ _ _ hne]
      simp

/-- The leading white space of a buffer is still there after `trim`. -/
theorem trim_keeps_leading (s : CStr) : s.takeWhile isspace <+: trim s := by
  unfold trim
  by_cases h : s.dropWhile isspace = []
  · simp only [h, if_true]
    exact ⟨s.dropWhile isspace, List.takeWhile_append_dropWhile isspace s⟩
  · simp only [if_neg h]
    exact List.prefix_append _ _

/-- C12 on the code: `trim` removes the white space at the end of a string that
has another byte, and nothing else: the white space in front stays, and a
string of white space only is left as it is.  `csv_load` stores the field ` x `
as ` x`. -/
theorem trim_leading_stays :
    (∀ s : CStr, s.takeWhile isspace <+: trim s) ∧
    (∀ s : CStr, trim s = if s.dropWhile isspace = [] then s
      else (s.reverse.dropWhile isspace).reverse) ∧
    trim " a".toList = " a".toList ∧
    trim "  a b \t".toList = "  a b".toList ∧
    trim "   ".toList = "   ".toList ∧
    loaded empty_table " h \n x \n".toList = some ⟨1, 1, [" h".toList], [[" x".toList]]⟩ := by
  refine ⟨trim_keeps_leading, trim_eq, by decide, by decide, by decide, by decide⟩

/-! ## The counters stay within the grid -/

theorem load_file_capacity (t u : Table) (content : List Char) (hc : Capacity t)
    (h : load_file t content = some u) : Capacity u := by
  cases hl : fgetsAll content.length content with
  | nil =>
    unfold load_file at h
    rw [hl] at h
    simp only [load_row_loop, Option.some.injEq] at h
    subst h
    exact ⟨Nat.zero_le _, hc.2⟩
  | cons hd bufs =>
    obtain ⟨h1, h2, _, _⟩ := load_file_spec t u content hd bufs hl h
    exact ⟨by rw [h2]; exact Nat.min_le_right _ _, by rw [h1]; exact Nat.min_le_right _ _⟩

theorem filter_loop_count_le (t : Table) (ci : Nat) (op value : CStr)
    (temp0 : Nat → Nat → CStr) :
    (filter_loop t ci op value temp0).new_row_count ≤ t.num_rows := by
  unfold filter_loop
  exact forLoop_inv (fun k (s : FilterState) => s.new_row_count ≤ k) t.num_rows
    (filter_step t ci op value) ⟨temp0, 0, []⟩ (Nat.le_refl 0)
    (fun i _ s hs => by
      unfold filter_step
      simp only []
      split
      · simp only []; omega
      · simp only []; omega)

theorem csv_filter_capacity (w : World) (args : List CStr) (hc : Capacity w.table) :
    Capacity (csv_filter w args).2.table := by
  rcases csv_filter_table_cases w args with h | ⟨_, _, op, value, _, c, _, _, h⟩
  · rw [h]; exact hc
  · rw [h]
    have := filter_loop_count_le w.table c op value (fun _ _ => [])
    exact ⟨Nat.le_trans this hc.1, hc.2⟩

theorem csv_sort_capacity (w : World) (args : List CStr) (hc : Capacity w.table) :
    Capacity (csv_sort w args).2.table := by
  rcases csv_sort_table_cases w args with h | ⟨_, _, _, c, _, _, h⟩
  · rw [h]; exact hc
  · rw [h]; exact hc

theorem csv_load_capacity (w : World) (args : List CStr) (r : Int × World)
    (hc : Capacity w.table) (h : csv_load w args = some r) : Capacity r.2.table := by
  unfold csv_load at h
  split at h
  · split at h
    · simp only [Option.some.injEq] at h
      rw [← h]; exact hc
    · next content _ =>
      split at h
      · simp at h
      · next u hu =>
        simp only [Option.some.injEq] at h
        rw [← h]
        exact load_file_capacity w.table u content hc hu
  · simp only [Option.some.injEq] at h
    rw [← h]; exact hc

theorem csv_count_table (w : World) (args : List CStr) :
    (csv_count w args).2.table = w.table := by
  unfold csv_count
  split <;> rfl

theorem csv_columns_table (w : World) (args : List CStr) :
    (csv_columns w args).2.table = w.table := by
  simp only [csv_columns]

theorem csv_help_table (w : World) (args : List CStr) :
    (csv_help w args).2.table = w.table := by
  simp only [csv_help]

theorem csv_execute_capacity (w : World) (args : List CStr) (r : Int × World)
    (hc : Capacity w.table) (h : csv_execute w args = some r) : Capacity r.2.table := by
  match args with
  | [] =>
    simp only [csv_execute, Option.some.injEq] at h
    rw [← h]; exact hc
  | cmd :: rest =>
    rw [csv_execute_cons] at h
    have same : ∀ x : Int × World, x.2.table = w.table → some x = some r →
        Capacity r.2.table := by
      intro x hx hr
      simp only [Option.some.injEq] at hr
      rw [← hr, hx]; exact hc
    by_cases h1 : cmd = "load".toList
    · rw [if_pos h1] at h
      exact csv_load_capacity w _ r hc h
    rw [if_neg h1] at h
    by_cases h2 : cmd = "show".toList
    · rw [if_pos h2] at h
      exact same (csv_show w (cmd :: rest)) rfl h
    rw [if_neg h2] at h
    by_cases h3 : cmd = "filter".toList
    · rw [if_pos h3] at h
      simp only [Option.some.injEq] at h
      rw [← h]; exact csv_filter_capacity w _ hc
    rw [if_neg h3] at h
    by_cases h4 : cmd = "sort".toList
    · rw [if_pos h4] at h
      simp only [Option.some.injEq] at h
      rw [← h]; exact csv_sort_capacity w _ hc
    rw [if_neg h4] at h
    by_cases h5 : cmd = "save".toList
    · rw [if_pos h5] at h
      exact same (csv_save w (cmd :: rest)) (csv_save_table w _).1 h
    rw [if_neg h5] at h
    by_cases h6 : cmd = "count".toList
    · rw [if_pos h6] at h
      exact same (csv_count w (cmd :: rest)) (csv_count_table w _) h
    rw [if_neg h6] at h
    by_cases h7 : cmd = "columns".toList
    · rw [if_pos h7] at h
      exact same (csv_columns w (cmd :: rest)) (csv_columns_table w _) h
    rw [if_neg h7] at h
    by_cases h8 : cmd = "help".toList
    · rw [if_pos h8] at h
      exact same (csv_help w (cmd :: rest)) (csv_help_table w _) h
    rw [if_neg h8] at h
    by_cases h9 : cmd = "exit".toList
    · rw [if_pos h9] at h
      exact same (csv_exit w (cmd :: rest)) rfl h
    rw [if_neg h9] at h
    exact same _ rfl h

/-- Every run that is defined keeps the counters within the grid. -/
theorem capacity_invariant (w w2 : World) (cmds : List (List CStr)) (hc : Capacity w.table)
    (h : run w cmds = some w2) : Capacity w2.table := by
  induction cmds generalizing w with
  | nil =>
    simp only [run, Option.some.injEq] at h
    rw [← h]; exact hc
  | cons args rest ih =>
    simp only [run] at h
    cases he : csv_execute w args with
    | none => rw [he] at h; simp at h
    | some r =>
      rw [he] at h
      simp only [] at h
      have hr := csv_execute_capacity w args r hc he
      split at h
      · simp only [Option.some.injEq] at h
        rw [← h]; exact hr
      · exact ih r.2 hr h

/-- C19 on the code: the header line of `overrunFile` has twenty fields, the
last one of 264 bytes.  `strcpy` copies it into the 256 bytes of `headers[19]`,
the last buffer before the counters: the load has no defined result. -/
theorem capacity_overrun :
    (strtokAll (chompLine (fgets (MAX_LINE - 1) overrunFile).1)).length = 20 ∧
    ((strtokAll (chompLine (fgets (MAX_LINE - 1) overrunFile).1)).getD 19 []).length = 264 ∧
    (load_file empty_table overrunFile).isNone = true ∧
    (csv_execute (startWorld [("big.csv".toList, overrunFile)])
      ["load".toList, "big.csv".toList]).isNone = true := by
  refine ⟨by decide!, by decide!, by decide!, by decide!⟩

/-! ## Filter and sort -/

theorem Dbl.le_antisymm (a b : Dbl) (h1 : Dbl.le a b = true) (h2 : Dbl.le b a = true) :
    a = b := by
  cases a <;> cases b <;> simp_all [Dbl.le]
  omega

/-- Two lists that are sorted by a key and list the elements of each key in the
same order are equal. -/
theorem sorted_stable_unique {α : Type} (key : α → Dbl) (l1 l2 : List α)
    (h1 : l1.Pairwise (fun x y => Dbl.le (key x) (key y) = true))
    (h2 : l2.Pairwise (fun x y => Dbl.le (key x) (key y) = true))
    (hf : ∀ k, l1.filter (fun x => decide (key x = k)) = l2.filter (fun x => decide (key x = k))) :
    l1 = l2 := by
  induction l1 generalizing l2 with
  | nil =>
    cases l2 with
    | nil => rfl
    | cons b l2t =>
      have := hf (key b)
      simp at this
  | cons a l1t ih =>
    cases l2 with
    | nil =>
      have := hf (key a)
      simp at this
    | cons b l2t =>
      have hkey : key a = key b := by
        by_cases hab : key a = key b
        · exact hab
        · have ha := hf (key a)
          have hb := hf (key b)
          have hba : ¬ (key b = key a) := fun e => hab e.symm
          simp only [List.filter_cons, decide_True, if_true, hab, hba, decide_False,
            Bool.false_eq_true, if_false] at ha hb
          have ha2 : a ∈ l2t := by
            have : a ∈ l2t.filter (fun x => decide (key x = key a)) := by
              rw [← ha]; exact List.mem_cons_self _ _
            exact (List.mem_filter.1 this).1
          have hb2 : b ∈ l1t := by
            have : b ∈ l1t.filter (fun x => decide (key x = key b)) := by
              rw [hb]; exact List.mem_cons_self _ _
            exact (List.mem_filter.1 this).1
          have e1 := (List.pairwise_cons.1 h1).1 b hb2
          have e2 := (List.pairwise_cons.1 h2).1 a ha2
          exact Dbl.le_antisymm _ _ e1 e2
      have h0 := hf (key a)
      simp only [List.filter_cons, decide_True, if_true, hkey] at h0
      have hab : a = b := (List.cons.inj h0).1
      subst hab
      congr 1
      apply ih l2t (List.pairwise_cons.1 h1).2 (List.pairwise_cons.1 h2).2
      intro k
      have hk := hf k
      simp only [List.filter_cons] at hk
      by_cases hka : key a = k
      · simp only [hka, decide_True, if_true] at hk
        exact (List.cons.inj hk).2
      · simp only [hka, decide_False, Bool.false_eq_true, if_false] at hk
        exact hk

theorem rowKey_rowOf (d : Nat → Nat → CStr) (m c r : Nat) (hc : c < m) :
    rowKey c (rowOf d m r) = keyAt d c r := by
  unfold rowKey keyAt
  rw [rowOf_getD _ _ _ _ hc]

/-- Without a NaN among the keys, `csv_sort` leaves the rows sorted by key. -/
theorem sort_table_pairwise (t : Table) (c : Nat) (hc : c < t.num_cols)
    (hnn : ∀ row ∈ t.rows, (rowKey c row).isNaN = false) :
    (sort_table t c).rows.Pairwise (fun x y => Dbl.le (rowKey c x) (rowKey c y) = true) := by
  have hperm := (sort_table_rows t c hc (fun _ => false) (fun _ _ h => by simp at h)).1
  have hk := keyAt_sort_table t c hc
  have hkey : ∀ r, r < t.num_rows → (keyAt (sort_table t c).data c r).isNaN = false := by
    intro r hr
    rw [← rowKey_rowOf _ t.num_cols c r hc]
    apply hnn
    apply hperm.subset
    exact (mem_rowsOf _ _ _ _).2 ⟨r, hr, rfl⟩
  have hs := bubble_keys_sorted t.num_rows (fun r => keyAt t.data c r)
  rw [← hk] at hs
  rw [List.pairwise_iff_getElem]
  intro i j hi hj hij
  have hi2 : i < t.num_rows := by simpa [Table.rows, sort_table, rowsOf_length] using hi
  have hj2 : j < t.num_rows := by simpa [Table.rows, sort_table, rowsOf_length] using hj
  have e : ∀ (k : Nat) (hk2 : k < (sort_table t c).rows.length),
      (sort_table t c).rows[k] = rowOf (sort_table t c).data t.num_cols k := by
    intro k hk2
    simp [Table.rows, rowsOf, sort_table]
  rw [e i hi, e j hj, rowKey_rowOf _ _ _ _ hc, rowKey_rowOf _ _ _ _ hc]
  exact hs j i hj2 hij (fun r _ hr2 => hkey r (by omega))

theorem filter_key_comm (p : List CStr → Bool) (c : Nat) (k : Dbl) (l : List (List CStr)) :
    (l.filter p).filter (fun row => decide (rowKey c row = k))
      = (l.filter (fun row => decide (rowKey c row = k))).filter p := by
  rw [List.filter_filter, List.filter_filter]
  congr 1
  funext row
  exact Bool.and_comm _ _

/-- On a table without a NaN among the keys of the sort column, the rows after
filter then sort are the rows after sort then filter. -/
theorem filter_sort_tables (t : Table) (cf cs : Nat) (op value : CStr)
    (hcf : cf < t.num_cols) (hcs : cs < t.num_cols)
    (hnn : ∀ row ∈ t.rows, (rowKey cs row).isNaN = false) :
    (sort_table (filter_table t cf op value) cs).rows
      = (filter_table (sort_table t cs) cf op value).rows := by
  have hstab : ∀ (u : Table) (hu : cs < u.num_cols) (k : Dbl),
      (sort_table u cs).rows.filter (fun row => decide (rowKey cs row = k))
        = u.rows.filter (fun row => decide (rowKey cs row = k)) := by
    intro u hu k
    refine (sort_table_rows u cs hu (fun row => decide (rowKey cs row = k))
      (fun x y hx hy => ?_)).2
    have hx1 : rowKey cs x = k := by simpa using hx
    have hy1 : rowKey cs y = k := by simpa using hy
    rw [hx1, hy1]
    exact Dbl.gt_irrefl k
  have hfr := filter_table_rows t cf op value hcf
  have hfs := filter_table_rows (sort_table t cs) cf op value hcf
  have hnnf : ∀ row ∈ (filter_table t cf op value).rows, (rowKey cs row).isNaN = false := by
    intro row hrow
    rw [hfr] at hrow
    exact hnn row (List.mem_filter.1 hrow).1
  apply sorted_stable_unique (rowKey cs)
  · exact sort_table_pairwise (filter_table t cf op value) cs hcs hnnf
  · rw [hfs]
    exact (sort_table_pairwise t cs hcs hnn).filter _
  · intro k
    rw [hstab (filter_table t cf op value) hcs k, hfr, hfs, filter_key_comm, filter_key_comm,
      hstab t hcs k]

theorem view_eq_of_rows (t u : Table) (h1 : t.num_cols = u.num_cols)
    (h2 : t.headers = u.headers) (h3 : t.rows = u.rows) : t.view = u.view := by
  have hn : t.num_rows = u.num_rows := by
    have := congrArg List.length h3
    simpa [Table.rows, rowsOf_length] using this
  simp only [Table.view, Table.headerList, h1, h2, h3, hn]

/-- C20 as amended: when both column names resolve and no row of the table has a
NaN as its key in the sort column, `csv_filter` followed by `csv_sort` leaves the
table with the same rows in the same order (and the same counters and headers)
as `csv_sort` followed by `csv_filter` with the same arguments. -/
theorem filter_sort_commute (w : World) (cmdF fname op value cmdS sname : CStr)
    (extraF extraS : List CStr) (cf cs : Nat)
    (hf : find_column w.table fname = (cf : Int))
    (hs : find_column w.table sname = (cs : Int))
    (hnn : ∀ r, r < w.table.num_rows → (atof (w.table.data r cs)).isNaN = false) :
    (csv_sort (csv_filter w (cmdF :: fname :: op :: value :: extraF)).2
        (cmdS :: sname :: extraS)).2.table.view
      = (csv_filter (csv_sort w (cmdS :: sname :: extraS)).2
          (cmdF :: fname :: op :: value :: extraF)).2.table.view := by
  have hcf := find_column_lt w.table fname cf hf
  have hcs := find_column_lt w.table sname cs hs
  have e1 := (csv_filter_found w cmdF fname op value extraF cf hf).2
  have e2 := (csv_sort_found w cmdS sname extraS cs hs).2
  have hs2 : find_column (csv_filter w (cmdF :: fname :: op :: value :: extraF)).2.table sname
      = (cs : Int) := by
    rw [e1, ← hs]
    exact find_column_congr _ _ sname rfl rfl
  have hf2 : find_column (csv_sort w (cmdS :: sname :: extraS)).2.table fname = (cf : Int) := by
    rw [e2, ← hf]
    exact find_column_congr _ _ fname rfl rfl
  rw [(csv_sort_found _ cmdS sname extraS cs hs2).2,
    (csv_filter_found _ cmdF fname op value extraF cf hf2).2, e1, e2]
  refine view_eq_of_rows (sort_table (filter_table w.table cf op value) cs)
    (filter_table (sort_table w.table cs) cf op value) rfl rfl ?_
  apply filter_sort_tables w.table cf cs op value hcf hcs
  intro row hrow
  obtain ⟨r, hr, rfl⟩ := (mem_rowsOf _ _ _ _).1 hrow
  rw [rowKey_rowOf _ _ _ _ hcs]
  exact hnn r hr

/-- Instance of the amended C20: `filter age > 25` and `sort age` on `people`. -/
theorem filter_sort_commute_witness :
    (csv_sort (csv_filter (worldOf people)
          ["filter".toList, "age".toList, ">".toList, "25".toList]).2
        ["sort".toList, "age".toList]).2.table.view
      = (csv_filter (csv_sort (worldOf people) ["sort".toList, "age".toList]).2
          ["filter".toList, "age".toList, ">".toList, "25".toList]).2.table.view :=
  filter_sort_commute (worldOf people) "filter".toList "age".toList ">".toList "25".toList
    "sort".toList "age".toList [] [] 1 1 (by decide) (by decide) (by decide!)

/-- C20 fails as stated: in `wallTable` (the keys `2`, `nan`, `1`) the row `nan`
is never moved by `csv_sort`.  Sorting first leaves `2`, `nan`, `1`, and the
filter `x != nan` then gives `2`, `1`; filtering first gives `2`, `1`, which the
sort turns into `1`, `2`. -/
theorem filter_sort_nan_counterexample :
    find_column wallTable "x".toList = 0 ∧
    (csv_sort (csv_filter (worldOf wallTable)
          ["filter".toList, "x".toList, "!=".toList, "nan".toList]).2
        ["sort".toList, "x".toList]).2.table.rows = [["1".toList], ["2".toList]] ∧
    (csv_filter (csv_sort (worldOf wallTable) ["sort".toList, "x".toList]).2
        ["filter".toList, "x".toList, "!=".toList, "nan".toList]).2.table.rows
      = [["2".toList], ["1".toList]] := by
  refine ⟨by decide, by decide!, by decide!⟩

end CsvShell
